import Mathlib

/-!
Verification of the file_organizer pipeline: a shallow embedding of the
organize/revert engine (scanner filter, classifier registry dispatch,
hasher dispatch, conflict resolution, file movement, index upserts and
the reverter) together with proofs about the behaviour claimed in the
specification.

Paths are modelled structurally: a file path is a list of directory
components plus a file name that is already split into stem and
extension (mirroring what std::path::Path::file_stem / extension
produce for the names this program builds).  The filesystem is a finite
association list from paths to file data; directories are implicit.
Hash digests are produced by an arbitrary digest function passed as a
parameter (the program treats BLAKE3 as an external collaborator and only
compares encoded digests for equality).
-/

namespace FileOrganizer

/-- A file name split into stem and optional extension, as
std::path file_stem / extension split the names handled here. -/
structure FileName where
  stem : String
  ext : Option String
deriving DecidableEq

/-- Render a file name the way Path::file_name displays it. -/
def FileName.render (n : FileName) : String :=
  match n.ext with
  | none => n.stem
  | some e => n.stem ++ "." ++ e

/-- A structural file path: directory components plus the file name. -/
structure FsPath where
  dirs : List String
  name : FileName
deriving DecidableEq

/-- The full component list of a path (Path::components). -/
def FsPath.components (p : FsPath) : List String :=
  p.dirs ++ [p.name.render]

/-- Per-file data tracked by the model: content bytes plus the three
timestamps the scanner records (epoch seconds, absent when the
platform does not provide them). -/
structure FileData where
  content : List Nat
  created : Option Int
  modified : Option Int
  accessed : Option Int
deriving DecidableEq

/-- The filesystem: a finite association list from paths to file data. -/
abbrev Fs := List (FsPath × FileData)

/-- Look a path up in the filesystem (tokio::fs reads). -/
def lookupFile (fs : Fs) (p : FsPath) : Option FileData :=
  (fs.find? (fun e => decide (e.1 = p))).map (fun e => e.2)

/-- tokio::fs::try_exists. -/
def existsFile (fs : Fs) (p : FsPath) : Bool :=
  (lookupFile fs p).isSome

/-- Remove a file (tokio::fs::remove_file; removing an absent path is
the identity, callers check existence first). -/
def eraseFile (fs : Fs) (p : FsPath) : Fs :=
  fs.filter (fun e => !decide (e.1 = p))

/-- Create or overwrite a file with the given data. -/
def setFile (fs : Fs) (p : FsPath) (d : FileData) : Fs :=
  (p, d) :: eraseFile fs p

/-- FileMover::move_file on one device: an atomic rename carrying the
file data from src to dest; fails when the source is absent. -/
def moveFile (fs : Fs) (src dest : FsPath) : Option Fs :=
  (lookupFile fs src).map (fun d => setFile (eraseFile fs src) dest d)

theorem lookupFile_nil (p : FsPath) : lookupFile [] p = none := rfl

theorem lookupFile_cons (e : FsPath × FileData) (fs : Fs) (p : FsPath) :
    lookupFile (e :: fs) p = if e.1 = p then some e.2 else lookupFile fs p := by
  by_cases h : e.1 = p <;> simp [lookupFile, List.find?, h]

theorem eraseFile_cons (e : FsPath × FileData) (fs : Fs) (p : FsPath) :
    eraseFile (e :: fs) p
      = if e.1 = p then eraseFile fs p else e :: eraseFile fs p := by
  by_cases h : e.1 = p <;> simp [eraseFile, List.filter_cons, h]

theorem lookupFile_erase_self (fs : Fs) (p : FsPath) :
    lookupFile (eraseFile fs p) p = none := by
  induction fs with
  | nil => rfl
  | cons e rest ih =>
      rw [eraseFile_cons]
      by_cases h : e.1 = p
      · rw [if_pos h]
        exact ih
      · rw [if_neg h, lookupFile_cons, if_neg h]
        exact ih

theorem lookupFile_erase_ne (fs : Fs) (p q : FsPath) (h : q ≠ p) :
    lookupFile (eraseFile fs p) q = lookupFile fs q := by
  induction fs with
  | nil => rfl
  | cons e rest ih =>
      rw [eraseFile_cons]
      by_cases hep : e.1 = p
      · have hne : e.1 ≠ q := by
          rw [hep]
          exact fun hh => h hh.symm
        rw [if_pos hep, lookupFile_cons, if_neg hne]
        exact ih
      · rw [if_neg hep, lookupFile_cons, lookupFile_cons]
        by_cases heq : e.1 = q
        · rw [if_pos heq, if_pos heq]
        · rw [if_neg heq, if_neg heq]
          exact ih

theorem lookupFile_set_self (fs : Fs) (p : FsPath) (d : FileData) :
    lookupFile (setFile fs p d) p = some d := by
  simp [setFile, lookupFile_cons]

theorem lookupFile_set_ne (fs : Fs) (p q : FsPath) (d : FileData) (h : q ≠ p) :
    lookupFile (setFile fs p d) q = lookupFile fs q := by
  have : p ≠ q := fun hh => h hh.symm
  simp [setFile, lookupFile_cons, this, lookupFile_erase_ne fs p q h]

theorem existsFile_iff (fs : Fs) (p : FsPath) :
    existsFile fs p = true ↔ ∃ d, lookupFile fs p = some d := by
  cases h : lookupFile fs p <;> simp [existsFile, h]

theorem existsFile_false_iff (fs : Fs) (p : FsPath) :
    existsFile fs p = false ↔ lookupFile fs p = none := by
  cases h : lookupFile fs p <;> simp [existsFile, h]

theorem moveFile_some (fs : Fs) (src dest : FsPath) (d : FileData)
    (h : lookupFile fs src = some d) :
    moveFile fs src dest = some (setFile (eraseFile fs src) dest d) := by
  simp [moveFile, h]

/-! ## Hasher (engine/hasher.rs)

hash_file_with reads the file in BUFFER_SIZE chunks; files whose size
exceeds BLOCKING_THRESHOLD run the identical chunked loop on the
blocking worker pool, the rest run it inline.  The loop is generic in
the hasher state, exactly as the Rust helper is generic over
init / update / finalize. -/

def BUFFER_SIZE : Nat := 8192

def BLOCKING_THRESHOLD : Nat := 50 * 1024 * 1024

/-- The chunked read loop shared by both paths: each iteration reads at
most BUFFER_SIZE bytes and feeds them to update.  The fuel argument is
a termination bound only; the callers supply the content length, which
always suffices because every iteration consumes at least one byte. -/
def hashLoopAux {H : Type} (update : H → List Nat → H) :
    Nat → H → List Nat → H
  | _, h, [] => h
  | 0, h, rest => update h rest
  | fuel + 1, h, b :: rest =>
      hashLoopAux update fuel (update h ((b :: rest).take BUFFER_SIZE))
        ((b :: rest).drop BUFFER_SIZE)

/-- Feed the whole content through the chunked loop. -/
def hashLoop {H : Type} (update : H → List Nat → H) (h : H)
    (content : List Nat) : H :=
  hashLoopAux update content.length h content

/-- The inline small-file path of hash_file_with. -/
def hashSmallInline {H D : Type} (init : H) (update : H → List Nat → H)
    (finalize : H → D) (content : List Nat) : D :=
  finalize (hashLoop update init content)

/-- The offloaded large-file path of hash_file_with (spawn_blocking);
it runs the same chunked loop. -/
def hashLargeOffloaded {H D : Type} (init : H) (update : H → List Nat → H)
    (finalize : H → D) (content : List Nat) : D :=
  finalize (hashLoop update init content)

/-- hash_file_with: dispatch on the file size. -/
def hash_file_with {H D : Type} (init : H) (update : H → List Nat → H)
    (finalize : H → D) (content : List Nat) : D :=
  if content.length > BLOCKING_THRESHOLD then
    hashLargeOffloaded init update finalize content
  else
    hashSmallInline init update finalize content

/-- The reference digest of the bytes: one update over the whole
content (what the unit tests compute via blake3::hash / one-shot
Sha256). -/
def referenceDigest {H D : Type} (init : H) (update : H → List Nat → H)
    (finalize : H → D) (content : List Nat) : D :=
  finalize (update init content)

theorem hashLoopAux_eq_update {H : Type} (update : H → List Nat → H)
    (hu : ∀ h a b, update h (a ++ b) = update (update h a) b)
    (hnil : ∀ h, update h [] = h) :
    ∀ fuel h content, hashLoopAux update fuel h content = update h content := by
  intro fuel
  induction fuel with
  | zero =>
      intro h content
      cases content with
      | nil => simp [hashLoopAux, hnil]
      | cons b rest => simp [hashLoopAux]
  | succ n ih =>
      intro h content
      cases content with
      | nil => simp [hashLoopAux, hnil]
      | cons b rest =>
          have hsplit :
              (b :: rest).take BUFFER_SIZE ++ (b :: rest).drop BUFFER_SIZE
                = b :: rest := List.take_append_drop _ _
          calc hashLoopAux update (n + 1) h (b :: rest)
              = hashLoopAux update n
                  (update h ((b :: rest).take BUFFER_SIZE))
                  ((b :: rest).drop BUFFER_SIZE) := rfl
            _ = update (update h ((b :: rest).take BUFFER_SIZE))
                  ((b :: rest).drop BUFFER_SIZE) := ih _ _
            _ = update h
                  ((b :: rest).take BUFFER_SIZE ++ (b :: rest).drop BUFFER_SIZE) :=
                  (hu _ _ _).symm
            _ = update h (b :: rest) := by rw [hsplit]

theorem hashLoop_eq_update {H : Type} (update : H → List Nat → H)
    (hu : ∀ h a b, update h (a ++ b) = update (update h a) b)
    (hnil : ∀ h, update h [] = h) (h : H) (content : List Nat) :
    hashLoop update h content = update h content :=
  hashLoopAux_eq_update update hu hnil _ _ _

/-- C3: the hasher hashes inline exactly when the size is at most the
50 MiB threshold and on the offloaded worker path when it is above,
and for every streaming hasher (update absorbs concatenation and the
empty chunk) both paths produce the digest of the whole content, equal
to the reference digest of those bytes — at every size, in particular
at the threshold boundary. -/
theorem hasher_dispatch_path_independence {H D : Type} (init : H)
    (update : H → List Nat → H) (finalize : H → D)
    (hu : ∀ h a b, update h (a ++ b) = update (update h a) b)
    (hnil : ∀ h, update h [] = h) (content : List Nat) :
    (content.length ≤ BLOCKING_THRESHOLD →
        hash_file_with init update finalize content
          = hashSmallInline init update finalize content) ∧
    (content.length > BLOCKING_THRESHOLD →
        hash_file_with init update finalize content
          = hashLargeOffloaded init update finalize content) ∧
    hashSmallInline init update finalize content
      = referenceDigest init update finalize content ∧
    hashLargeOffloaded init update finalize content
      = referenceDigest init update finalize content := by
  refine ⟨?_, ?_, ?_, ?_⟩
  · intro hle
    have : ¬ content.length > BLOCKING_THRESHOLD := not_lt.mpr hle
    simp [hash_file_with, this]
  · intro hgt
    simp [hash_file_with, hgt]
  · simp [hashSmallInline, referenceDigest,
      hashLoop_eq_update update hu hnil]
  · simp [hashLargeOffloaded, referenceDigest,
      hashLoop_eq_update update hu hnil]

/-- Witness for C3: instantiated with the list-append hasher at a
concrete content, both dispatch regimes and both digest equalities are
realised. -/
theorem hasher_dispatch_path_independence_witness :
    ([1, 2, 3] : List Nat).length ≤ BLOCKING_THRESHOLD ∧
    hash_file_with ([] : List Nat) (fun h c => h ++ c) id [1, 2, 3]
      = hashSmallInline ([] : List Nat) (fun h c => h ++ c) id [1, 2, 3] ∧
    hashSmallInline ([] : List Nat) (fun h c => h ++ c) id [1, 2, 3]
      = referenceDigest ([] : List Nat) (fun h c => h ++ c) id [1, 2, 3] := by
  have h := hasher_dispatch_path_independence ([] : List Nat)
    (fun h c => h ++ c) id (fun h a b => by simp) (fun h => by simp) [1, 2, 3]
  refine ⟨by decide, h.1 (by decide), h.2.2.1⟩

/-! ## Conflict resolver (mover/conflict_resolver.rs)

resolve_conflict(path, overwrite): with overwrite the occupant of path
is deleted and path itself is returned; without overwrite the path is
returned when free, otherwise candidates stem_1.ext, stem_2.ext, ...
are probed from 1 and the first free one is returned.  The unbounded
probe loop is modelled with a fuel bound; exhausting the fuel encodes
the loop not having terminated yet, so the result is an Option. -/

/-- The k-th disambiguation candidate: parent.join(stem_k.ext). -/
def candidatePath (p : FsPath) (k : Nat) : FsPath :=
  { dirs := p.dirs
    name := { stem := p.name.stem ++ "_" ++ Nat.repr k, ext := p.name.ext } }

/-- Probe candidates k, k+1, ... returning the first one absent from
the filesystem. -/
def probeFrom (fs : Fs) (p : FsPath) : Nat → Nat → Option FsPath
  | 0, _ => none
  | fuel + 1, k =>
      if existsFile fs (candidatePath p k) then probeFrom fs p fuel (k + 1)
      else some (candidatePath p k)

/-- resolve_conflict: returns the final path together with the
filesystem after the call (overwrite deletes the occupant). -/
def resolve_conflict (fs : Fs) (p : FsPath) (overwrite : Bool)
    (fuel : Nat) : Option (FsPath × Fs) :=
  if overwrite then
    some (p, eraseFile fs p)
  else if existsFile fs p then
    (probeFrom fs p fuel 1).map (fun q => (q, fs))
  else
    some (p, fs)

theorem probeFrom_spec (fs : Fs) (p : FsPath) :
    ∀ fuel k q, probeFrom fs p fuel k = some q →
      ∃ m, k ≤ m ∧ q = candidatePath p m ∧
        existsFile fs (candidatePath p m) = false ∧
        ∀ j, k ≤ j → j < m → existsFile fs (candidatePath p j) = true := by
  intro fuel
  induction fuel with
  | zero => intro k q h; exact absurd h (by simp [probeFrom])
  | succ n ih =>
      intro k q h
      by_cases hex : existsFile fs (candidatePath p k)
      · rw [probeFrom, if_pos hex] at h
        obtain ⟨m, hkm, hq, hfree, hall⟩ := ih (k + 1) q h
        refine ⟨m, by omega, hq, hfree, ?_⟩
        intro j hj hjm
        by_cases hjk : j = k
        · simpa [hjk] using hex
        · exact hall j (by omega) hjm
      · rw [probeFrom, if_neg hex] at h
        refine ⟨k, le_rfl, by simpa using h.symm, by simpa using hex, ?_⟩
        intro j hj hjm
        omega

/-- C5: the conflict resolver contract.  With overwrite=false every
returned path is free at call time, the path itself is returned when it
is free, and otherwise the result is the first free numbered candidate
probed from 1; the filesystem is untouched.  With overwrite=true the
call returns the path itself and afterwards no pre-existing file
remains at it. -/
theorem resolve_conflict_spec (fs : Fs) (p : FsPath) (fuel : Nat) :
    (∀ q fs2, resolve_conflict fs p false fuel = some (q, fs2) →
      fs2 = fs ∧ existsFile fs q = false ∧
      (existsFile fs p = false → q = p) ∧
      (existsFile fs p = true →
        ∃ m, 1 ≤ m ∧ q = candidatePath p m ∧
          ∀ j, 1 ≤ j → j < m → existsFile fs (candidatePath p j) = true)) ∧
    ∃ fs2, resolve_conflict fs p true fuel = some (p, fs2) ∧
      existsFile fs2 p = false := by
  constructor
  · intro q fs2 h
    by_cases hex : existsFile fs p
    · rw [resolve_conflict, if_neg (by simp), if_pos hex] at h
      cases hp : probeFrom fs p fuel 1 with
      | none => rw [hp] at h; exact absurd h (by simp)
      | some r =>
          rw [hp] at h
          have h2 : r = q ∧ fs = fs2 := by
            have := Option.some.inj h
            exact ⟨congrArg Prod.fst this, congrArg Prod.snd this⟩
          obtain ⟨hq, hfs⟩ := h2
          obtain ⟨m, h1m, hr, hfree, hall⟩ := probeFrom_spec fs p fuel 1 r hp
          subst hq hfs
          refine ⟨rfl, by rw [hr]; exact hfree, ?_, ?_⟩
          · intro hc; exact absurd hex (by simp [hc])
          · intro _; exact ⟨m, h1m, hr, hall⟩
    · rw [resolve_conflict, if_neg (by simp), if_neg hex] at h
      have h2 : p = q ∧ fs = fs2 := by
        have := Option.some.inj h
        exact ⟨congrArg Prod.fst this, congrArg Prod.snd this⟩
      obtain ⟨hq, hfs⟩ := h2
      subst hq hfs
      refine ⟨rfl, by simpa using hex, fun _ => rfl, ?_⟩
      intro hc
      exact absurd hc (by simpa using hex)
  · refine ⟨eraseFile fs p, by simp [resolve_conflict], ?_⟩
    simp [existsFile, lookupFile_erase_self]

/-- Witness for C5 at a concrete filesystem: p itself is occupied, so
overwrite=false returns the first numbered candidate, and
overwrite=true clears p. -/
theorem resolve_conflict_spec_witness :
    (let p : FsPath := { dirs := ["r"], name := { stem := "a", ext := some "txt" } }
     let fs : Fs := [(p, { content := [1], created := none, modified := none, accessed := none })]
     resolve_conflict fs p false 3 = some (candidatePath p 1, fs) ∧
       existsFile fs (candidatePath p 1) = false ∧
       (∃ fs2, resolve_conflict fs p true 3 = some (p, fs2) ∧
          existsFile fs2 p = false)) := by
  intro p fs
  refine ⟨by decide, ?_, ?_⟩
  · have h := (resolve_conflict_spec fs p 3).1 (candidatePath p 1) fs (by decide)
    exact h.2.1
  · exact (resolve_conflict_spec fs p 3).2

/-! ## Stable descending sort

Rust Vec::sort_by is a stable sort; sorting by a comparator that
compares keys in descending order therefore has a unique result:
elements ordered by descending key, equal keys keeping their input
order.  The insertion sort below realises exactly that result (each
element is inserted after all elements with a key at least as large),
so it is a faithful model of the sort_by calls in the registry. -/

def insertDescBy {α : Type} (key : α → Nat) (x : α) : List α → List α
  | [] => [x]
  | y :: ys => if key y < key x then x :: y :: ys else y :: insertDescBy key x ys

def sortDescBy {α : Type} (key : α → Nat) (l : List α) : List α :=
  l.foldl (fun acc x => insertDescBy key x acc) []

/-- Descending-sortedness by a key. -/
def SortedDescBy {α : Type} (key : α → Nat) (l : List α) : Prop :=
  l.Pairwise (fun a b => key b ≤ key a)

theorem insertDescBy_perm {α : Type} (key : α → Nat) (x : α) (l : List α) :
    (insertDescBy key x l).Perm (x :: l) := by
  induction l with
  | nil => simp [insertDescBy]
  | cons y ys ih =>
      rw [insertDescBy]
      by_cases h : key y < key x
      · rw [if_pos h]
      · rw [if_neg h]
        exact (ih.cons y).trans (List.Perm.swap x y ys)

theorem sortDescBy_perm {α : Type} (key : α → Nat) (l : List α) :
    (sortDescBy key l).Perm l := by
  have main : ∀ (l acc : List α), (l.foldl (fun acc x => insertDescBy key x acc) acc).Perm (acc ++ l) := by
    intro l
    induction l with
    | nil => intro acc; simp
    | cons x xs ih =>
        intro acc
        have h1 := ih (insertDescBy key x acc)
        have h2 : (insertDescBy key x acc ++ xs).Perm ((x :: acc) ++ xs) :=
          (insertDescBy_perm key x acc).append_right xs
        have h3 : ((x :: acc) ++ xs).Perm (acc ++ x :: xs) := by
          simpa using List.perm_middle.symm
        exact ((List.foldl_cons .. ▸ h1).trans h2).trans h3
  simpa using main l []

theorem mem_insertDescBy {α : Type} (key : α → Nat) (x z : α) (l : List α) :
    z ∈ insertDescBy key x l ↔ z = x ∨ z ∈ l :=
  by simpa using (insertDescBy_perm key x l).mem_iff

theorem mem_sortDescBy {α : Type} (key : α → Nat) (z : α) (l : List α) :
    z ∈ sortDescBy key l ↔ z ∈ l :=
  (sortDescBy_perm key l).mem_iff

theorem insertDescBy_sorted {α : Type} (key : α → Nat) (x : α) (l : List α)
    (h : SortedDescBy key l) : SortedDescBy key (insertDescBy key x l) := by
  induction l with
  | nil => simp [insertDescBy, SortedDescBy]
  | cons y ys ih =>
      rw [insertDescBy]
      rcases List.pairwise_cons.mp h with ⟨hy, hys⟩
      by_cases hlt : key y < key x
      · rw [if_pos hlt]
        refine List.pairwise_cons.mpr ⟨?_, h⟩
        intro z hz
        rcases List.mem_cons.mp hz with hz | hz
        · exact le_of_lt (hz ▸ hlt)
        · exact le_trans (hy z hz) (le_of_lt hlt)
      · rw [if_neg hlt]
        refine List.pairwise_cons.mpr ⟨?_, ih hys⟩
        intro z hz
        rcases (mem_insertDescBy key x z ys).mp hz with hz | hz
        · exact hz ▸ le_of_not_gt hlt
        · exact hy z hz

theorem sortDescBy_sorted {α : Type} (key : α → Nat) (l : List α) :
    SortedDescBy key (sortDescBy key l) := by
  have main : ∀ (l acc : List α), SortedDescBy key acc →
      SortedDescBy key (l.foldl (fun acc x => insertDescBy key x acc) acc) := by
    intro l
    induction l with
    | nil => intro acc h; simpa using h
    | cons x xs ih =>
        intro acc h
        exact List.foldl_cons .. ▸ ih _ (insertDescBy_sorted key x acc h)
  exact main l [] (by simp [SortedDescBy])

theorem filter_insertDescBy_ne {α : Type} (key : α → Nat) (x : α) (l : List α)
    (s : Nat) (hx : key x ≠ s) :
    (insertDescBy key x l).filter (fun z => decide (key z = s))
      = l.filter (fun z => decide (key z = s)) := by
  induction l with
  | nil => simp [insertDescBy, List.filter, hx]
  | cons y ys ih =>
      rw [insertDescBy]
      by_cases hlt : key y < key x
      · rw [if_pos hlt]
        simp [List.filter_cons, hx]
      · rw [if_neg hlt]
        by_cases hy : key y = s
        · simp [List.filter_cons, hy, ih]
        · simp [List.filter_cons, hy, ih]

theorem filter_insertDescBy_eq {α : Type} (key : α → Nat) (x : α) (l : List α)
    (s : Nat) (hs : SortedDescBy key l) (hx : key x = s) :
    (insertDescBy key x l).filter (fun z => decide (key z = s))
      = l.filter (fun z => decide (key z = s)) ++ [x] := by
  induction l with
  | nil => simp [insertDescBy, List.filter, hx]
  | cons y ys ih =>
      rcases List.pairwise_cons.mp hs with ⟨hy, hys⟩
      rw [insertDescBy]
      by_cases hlt : key y < key x
      · rw [if_pos hlt]
        have hyne : key y ≠ s := by omega
        have hnone : ys.filter (fun z => decide (key z = s)) = [] := by
          refine List.filter_eq_nil_iff.mpr ?_
          intro z hz
          have := hy z hz
          simp only [decide_eq_true_eq]
          omega
        simp [List.filter_cons, hx, hyne, hnone]
      · rw [if_neg hlt]
        by_cases hyeq : key y = s
        · simp [List.filter_cons, hyeq, ih hys]
        · simp [List.filter_cons, hyeq, ih hys]

/-- Stability of the sort: for every key value, the subsequence of
elements carrying that key is preserved from input to output. -/
theorem sortDescBy_stable {α : Type} (key : α → Nat) (l : List α) (s : Nat) :
    (sortDescBy key l).filter (fun z => decide (key z = s))
      = l.filter (fun z => decide (key z = s)) := by
  have main : ∀ (l acc : List α), SortedDescBy key acc →
      (l.foldl (fun acc x => insertDescBy key x acc) acc).filter
          (fun z => decide (key z = s))
        = acc.filter (fun z => decide (key z = s))
            ++ l.filter (fun z => decide (key z = s)) := by
    intro l
    induction l with
    | nil => intro acc h; simp
    | cons x xs ih =>
        intro acc h
        rw [List.foldl_cons, ih _ (insertDescBy_sorted key x acc h)]
        by_cases hx : key x = s
        · rw [filter_insertDescBy_eq key x acc s h hx]
          simp [List.filter_cons, hx]
        · rw [filter_insertDescBy_ne key x acc s hx]
          simp [List.filter_cons, hx]
  simpa using main l [] (by simp [SortedDescBy])

/-! ## Classifier registry (classifiers/registry.rs)

The registry is a vector of (priority, classifier) pairs.  Each
registration pushes the pair and re-sorts the vector by priority,
descending, with a stable sort.  classify computes, in registry order,
the weighted candidates with confidence > 0, then stable-sorts them by
weighted score, descending, and tries them in that order.  The
definitions are generic in the classifier type, with the confidence
function passed explicitly (in Rust it is a trait method). -/

def register_with_priority {C : Type} (reg : List (Nat × C)) (priority : Nat)
    (c : C) : List (Nat × C) :=
  sortDescBy (fun pc => pc.1) (reg ++ [(priority, c)])

/-- Register a whole list of (priority, classifier) pairs in order. -/
def registerAll {C : Type} (regs : List (Nat × C)) : List (Nat × C) :=
  regs.foldl (fun acc pc => register_with_priority acc pc.1 pc.2) []

/-- The candidate list collected by classify, in registry traversal
order: classifiers with confidence > 0, paired with
weighted_score = priority * confidence and the confidence. -/
def classifyCandidates {C : Type} (conf : C → String → String → Nat)
    (reg : List (Nat × C)) (ext mime : String) : List (C × Nat × Nat) :=
  reg.filterMap (fun pc =>
    let cf := conf pc.2 ext mime
    if cf > 0 then some (pc.2, pc.1 * cf, cf) else none)

/-- The order in which classify tries candidates: the stable descending
sort of the candidates by weighted score. -/
def classifyOrder {C : Type} (conf : C → String → String → Nat)
    (reg : List (Nat × C)) (ext mime : String) : List (C × Nat × Nat) :=
  sortDescBy (fun t => t.2.1) (classifyCandidates conf reg ext mime)

theorem mem_classifyCandidates {C : Type} (conf : C → String → String → Nat)
    (reg : List (Nat × C)) (ext mime : String) (t : C × Nat × Nat) :
    t ∈ classifyCandidates conf reg ext mime ↔
      ∃ p c, (p, c) ∈ reg ∧ 0 < conf c ext mime ∧
        t = (c, p * conf c ext mime, conf c ext mime) := by
  simp only [classifyCandidates, List.mem_filterMap]
  constructor
  · rintro ⟨⟨p, c⟩, hmem, hf⟩
    by_cases hc : 0 < conf c ext mime
    · refine ⟨p, c, hmem, hc, ?_⟩
      rw [if_pos (by simpa using hc)] at hf
      exact (Option.some.inj hf).symm
    · simp only at hf
      rw [if_neg (by simpa using hc)] at hf
      exact absurd hf (by simp)
  · rintro ⟨p, c, hmem, hc, ht⟩
    refine ⟨(p, c), hmem, ?_⟩
    simp only
    rw [if_pos (by simpa using hc), ht]

/-- A two-classifier registry used to examine the tie-break rule:
classifier false is registered first with priority 10 and always
reports confidence 100, classifier true is registered second with
priority 100 and always reports confidence 10, so both weighted
scores are 10 * 100 = 100 * 10 = 1000. -/
def confAB : Bool → String → String → Nat := fun c _ _ => if c then 10 else 100

def regsAB : List (Nat × Bool) := [(10, false), (100, true)]

def regAB : List (Nat × Bool) := registerAll regsAB

/-- C6 counterexample: with equal weighted scores (both 1000) the
classifier registered EARLIER (false, priority 10, confidence 100) is
claimed to be tried first, but classify tries the later-registered,
higher-priority classifier (true) first: the candidate vector is
collected in registry order, and registration keeps the registry
sorted by priority descending, so the stable score sort breaks the tie
in favour of the higher-priority classifier, not the earlier-registered
one. -/
theorem classify_tiebreak_counterexample :
    regAB = [(100, true), (10, false)] ∧
    classifyOrder confAB regAB ("x") ("m")
      = [(true, 1000, 10), (false, 1000, 100)] ∧
    (10 : Nat) * 100 = 100 * 10 := by
  refine ⟨by decide, by decide, by decide⟩

/-- C6 amended: for every registry built by register_with_priority and
every entry, classify tries exactly the classifiers reporting
confidence > 0, in descending order of weighted_score =
priority * confidence; candidates with equal weighted scores are tried
in registry order — and the registry is kept sorted by priority
descending, classifiers of equal priority staying in registration
order — rather than in raw registration order. -/
theorem classify_dispatch_order_spec {C : Type}
    (conf : C → String → String → Nat) (regs : List (Nat × C))
    (ext mime : String) :
    (∀ t ∈ classifyOrder conf (registerAll regs) ext mime,
        ∃ p c, (p, c) ∈ registerAll regs ∧ 0 < conf c ext mime ∧
          t = (c, p * conf c ext mime, conf c ext mime)) ∧
    (∀ t, (∃ p c, (p, c) ∈ registerAll regs ∧ 0 < conf c ext mime ∧
          t = (c, p * conf c ext mime, conf c ext mime)) →
        t ∈ classifyOrder conf (registerAll regs) ext mime) ∧
    SortedDescBy (fun t => t.2.1)
      (classifyOrder conf (registerAll regs) ext mime) ∧
    (∀ s, (classifyOrder conf (registerAll regs) ext mime).filter
          (fun t => decide (t.2.1 = s))
        = (classifyCandidates conf (registerAll regs) ext mime).filter
          (fun t => decide (t.2.1 = s))) ∧
    SortedDescBy (fun pc => pc.1) (registerAll regs) ∧
    (∀ p0, (registerAll regs).filter (fun pc => decide (pc.1 = p0))
        = regs.filter (fun pc => decide (pc.1 = p0))) := by
  refine ⟨?_, ?_, ?_, ?_, ?_, ?_⟩
  · intro t ht
    exact (mem_classifyCandidates conf _ ext mime t).mp
      ((mem_sortDescBy _ t _).mp ht)
  · intro t ht
    exact (mem_sortDescBy _ t _).mpr
      ((mem_classifyCandidates conf _ ext mime t).mpr ht)
  · exact sortDescBy_sorted _ _
  · intro s
    exact sortDescBy_stable _ _ s
  · have main : ∀ (l acc : List (Nat × C)), SortedDescBy (fun pc => pc.1) acc →
        SortedDescBy (fun pc => pc.1)
          (l.foldl (fun acc pc => register_with_priority acc pc.1 pc.2) acc) := by
      intro l
      induction l with
      | nil => intro acc h; simpa using h
      | cons x xs ih =>
          intro acc h
          exact List.foldl_cons .. ▸ ih _ (sortDescBy_sorted _ _)
    exact main regs [] (by simp [SortedDescBy])
  · intro p0
    have main : ∀ (l acc : List (Nat × C)),
        (l.foldl (fun acc pc => register_with_priority acc pc.1 pc.2) acc).filter
            (fun pc => decide (pc.1 = p0))
          = acc.filter (fun pc => decide (pc.1 = p0))
              ++ l.filter (fun pc => decide (pc.1 = p0)) := by
      intro l
      induction l with
      | nil => intro acc; simp
      | cons x xs ih =>
          intro acc
          obtain ⟨x1, x2⟩ := x
          rw [List.foldl_cons, ih]
          have hreg : (register_with_priority acc x1 x2).filter
              (fun pc => decide (pc.1 = p0))
              = acc.filter (fun pc => decide (pc.1 = p0))
                  ++ [(x1, x2)].filter (fun pc => decide (pc.1 = p0)) := by
            rw [register_with_priority, sortDescBy_stable, List.filter_append]
          rw [hreg]
          by_cases hx : x1 = p0
          · simp [List.filter_cons, hx]
          · simp [List.filter_cons, hx]
    simpa using main regs []

/-- Witness for C6 amended at the concrete two-classifier registry:
the theorem applied at the member candidate (true, 1000, 10) yields its
origin in the registry. -/
theorem classify_dispatch_order_spec_witness :
    ∃ p c, (p, c) ∈ registerAll regsAB ∧ 0 < confAB c ("x") ("m") ∧
      ((true, 1000, 10) : Bool × Nat × Nat)
        = (c, p * confAB c ("x") ("m"), confAB c ("x") ("m")) :=
  (classify_dispatch_order_spec confAB regsAB ("x") ("m")).1
    (true, 1000, 10) (by decide)

/-! ## Index rows and upserts (engine/index.rs)

A row of the files table, keyed uniquely by the original path.
update_files_batch inserts each (metadata, category, destination,
hash) tuple with ON CONFLICT(path) DO UPDATE SET setting every
non-key column from the excluded row, so the last write for a path
wins; the chunked transactions commit the rows strictly in order,
which at the row level is the sequential fold below. -/

/-- RawFileMetadata as persisted (path, size, three timestamps). -/
structure RawMeta where
  path : FsPath
  size : Nat
  created : Option Int
  modified : Option Int
  accessed : Option Int
deriving DecidableEq

/-- One (metadata, category, destination, hash) tuple produced by the
organizer pipeline; hash holds the hex-encoded digest (or the marker
string in dry-run mode). -/
structure Entry where
  raw : RawMeta
  category : String
  dest : FsPath
  hash : String
deriving DecidableEq

/-- A row of the files table. -/
structure IndexRow where
  path : FsPath
  size : Nat
  created : Option Int
  modified : Option Int
  accessed : Option Int
  category : Option String
  dest_path : FsPath
  hash : Option String
deriving DecidableEq

def rowOfEntry (e : Entry) : IndexRow :=
  { path := e.raw.path
    size := e.raw.size
    created := e.raw.created
    modified := e.raw.modified
    accessed := e.raw.accessed
    category := some e.category
    dest_path := e.dest
    hash := some e.hash }

/-- INSERT ... ON CONFLICT(path) DO UPDATE SET (all non-key columns):
when a row with the path exists it is overwritten in place with the
new values, otherwise the row is appended. -/
def upsertRow (tbl : List IndexRow) (r : IndexRow) : List IndexRow :=
  if tbl.any (fun t => decide (t.path = r.path)) then
    tbl.map (fun t => if t.path = r.path then r else t)
  else
    tbl ++ [r]

/-- update_files_batch: upsert every entry in order. -/
def update_files_batch (tbl : List IndexRow) (entries : List Entry) :
    List IndexRow :=
  entries.foldl (fun t e => upsertRow t (rowOfEntry e)) tbl

/-- The uniqueness invariant of the files table: at most one row per
original path. -/
def pathsNodup (tbl : List IndexRow) : Prop :=
  (tbl.map (fun r => r.path)).Nodup

theorem upsertRow_map_path (tbl : List IndexRow) (r : IndexRow) :
    (upsertRow tbl r).map (fun t => t.path)
      = if tbl.any (fun t => decide (t.path = r.path)) then
          tbl.map (fun t => t.path)
        else tbl.map (fun t => t.path) ++ [r.path] := by
  by_cases h : tbl.any (fun t => decide (t.path = r.path))
  · rw [upsertRow, if_pos h, if_pos h, List.map_map]
    refine List.map_congr_left ?_
    intro t _
    by_cases ht : t.path = r.path
    · simp [Function.comp, ht]
    · simp [Function.comp, ht]
  · rw [upsertRow, if_neg h, if_neg h]
    simp

theorem upsertRow_nodup (tbl : List IndexRow) (r : IndexRow)
    (h : pathsNodup tbl) : pathsNodup (upsertRow tbl r) := by
  rw [pathsNodup, upsertRow_map_path]
  by_cases hc : tbl.any (fun t => decide (t.path = r.path))
  · rw [if_pos hc]
    exact h
  · rw [if_neg hc]
    refine List.Nodup.append h (List.nodup_singleton _) ?_
    intro x hx hx2
    rcases List.mem_map.mp hx with ⟨t, ht, hpath⟩
    rcases List.mem_singleton.mp hx2 with rfl
    have : tbl.any (fun t => decide (t.path = r.path)) = true :=
      List.any_eq_true.mpr ⟨t, ht, by simpa using hpath⟩
    exact hc this

theorem filter_of_no_match (r : IndexRow) (l : List IndexRow)
    (h : ∀ x ∈ l, x.path ≠ r.path) :
    (l.map (fun t => if t.path = r.path then r else t)).filter
      (fun t => decide (t.path = r.path)) = [] := by
  refine List.filter_eq_nil_iff.mpr ?_
  intro y hy
  rcases List.mem_map.mp hy with ⟨x, hx, hfx⟩
  have hne := h x hx
  rw [if_neg hne] at hfx
  subst hfx
  simpa using hne

theorem filter_map_replace (r : IndexRow) :
    ∀ tbl : List IndexRow, pathsNodup tbl →
      tbl.any (fun t => decide (t.path = r.path)) = true →
      (tbl.map (fun t => if t.path = r.path then r else t)).filter
        (fun t => decide (t.path = r.path)) = [r] := by
  intro tbl
  induction tbl with
  | nil => intro _ hc; simp at hc
  | cons t rest ih =>
      intro h hc
      rw [pathsNodup, List.map_cons, List.nodup_cons] at h
      obtain ⟨hnotin, hrest⟩ := h
      by_cases htp : t.path = r.path
      · have hnone : ∀ x ∈ rest, x.path ≠ r.path := by
          intro x hx hxp
          exact hnotin (List.mem_map.mpr ⟨x, hx, by rw [hxp, htp]⟩)
        rw [List.map_cons, if_pos htp, List.filter_cons,
          filter_of_no_match r rest hnone]
        simp
      · have hcrest : rest.any (fun t => decide (t.path = r.path)) = true := by
          rcases List.any_eq_true.mp hc with ⟨x, hx, hxp⟩
          rcases List.mem_cons.mp hx with rfl | hx2
          · exact absurd (by simpa using hxp) htp
          · exact List.any_eq_true.mpr ⟨x, hx2, hxp⟩
        rw [List.map_cons, if_neg htp, List.filter_cons]
        simp only [decide_eq_true_eq, htp, if_false]
        exact ih hrest hcrest

theorem filter_upsertRow_self (tbl : List IndexRow) (r : IndexRow)
    (h : pathsNodup tbl) :
    (upsertRow tbl r).filter (fun t => decide (t.path = r.path)) = [r] := by
  by_cases hc : tbl.any (fun t => decide (t.path = r.path)) = true
  · rw [upsertRow, if_pos hc]
    exact filter_map_replace r tbl h hc
  · rw [upsertRow, if_neg hc]
    have hnone : tbl.filter (fun t => decide (t.path = r.path)) = [] := by
      refine List.filter_eq_nil_iff.mpr ?_
      intro t ht
      simp only [decide_eq_true_eq]
      intro hp
      exact hc (List.any_eq_true.mpr ⟨t, ht, by simpa using hp⟩)
    rw [List.filter_append, hnone]
    simp

theorem update_files_batch_nodup (entries : List Entry) :
    ∀ tbl, pathsNodup tbl → pathsNodup (update_files_batch tbl entries) := by
  induction entries with
  | nil => intro tbl h; simpa [update_files_batch] using h
  | cons e rest ih =>
      intro tbl h
      have : update_files_batch tbl (e :: rest)
          = update_files_batch (upsertRow tbl (rowOfEntry e)) rest := rfl
      rw [this]
      exact ih _ (upsertRow_nodup tbl (rowOfEntry e) h)

/-- C4: persisting the same original path twice leaves exactly one row
for that path, holding the values of the second write, and batched
upserts never produce two rows with the same original path. -/
theorem index_upsert_idempotent (tbl : List IndexRow) (e1 e2 : Entry)
    (_hsame : e1.raw.path = e2.raw.path) (h : pathsNodup tbl) :
    (update_files_batch tbl [e1, e2]).filter
        (fun t => decide (t.path = e2.raw.path)) = [rowOfEntry e2] ∧
    (∀ entries : List Entry, pathsNodup (update_files_batch tbl entries)) := by
  constructor
  · have hstep : update_files_batch tbl [e1, e2]
        = upsertRow (upsertRow tbl (rowOfEntry e1)) (rowOfEntry e2) := rfl
    rw [hstep]
    have h1 : pathsNodup (upsertRow tbl (rowOfEntry e1)) :=
      upsertRow_nodup tbl (rowOfEntry e1) h
    exact filter_upsertRow_self _ (rowOfEntry e2) h1
  · intro entries
    exact update_files_batch_nodup entries tbl h

/-- Witness for C4: upserting two writes with the same original path
and different hash, category and destination into an empty table
leaves exactly the second row. -/
theorem index_upsert_idempotent_witness :
    (let p : FsPath := { dirs := ["r"], name := { stem := "a", ext := some "txt" } }
     let e1 : Entry := { raw := { path := p, size := 1, created := none, modified := none, accessed := none },
                         category := "Documents", dest := { dirs := ["r", "x"], name := { stem := "a", ext := some "txt" } },
                         hash := "h1" }
     let e2 : Entry := { raw := { path := p, size := 2, created := none, modified := none, accessed := none },
                         category := "Code", dest := { dirs := ["r", "y"], name := { stem := "a", ext := some "txt" } },
                         hash := "h2" }
     (update_files_batch [] [e1, e2]).filter
        (fun t => decide (t.path = e2.raw.path)) = [rowOfEntry e2]) := by
  intro p e1 e2
  exact (index_upsert_idempotent [] e1 e2 rfl (by simp [pathsNodup])).1

/-! ## Categories (classifiers/metadata.rs) -/

inductive DocumentSubcategory
  | Pdf | Word | Spreadsheet | Presentation | Text | OpenDocument | Ebook | Technical | Other
deriving DecidableEq

inductive ImageSubcategory
  | Jpeg | Png | Gif | Svg | Raw | Tiff | Webp | Bmp | Ico | Heic | Other
deriving DecidableEq

inductive VideoSubcategory
  | Mp4 | Avi | Mkv | Mov | Webm | Wmv | Flv | Mpeg | ThreeGp | Ts | Vob | Other
deriving DecidableEq

inductive AudioSubcategory
  | Mp3 | Wav | Flac | Aac | Ogg | M4a | Opus | Alac | Aiff | Wma | Other
deriving DecidableEq

inductive ArchiveSubcategory
  | Zip | Tar | Gz | Rar | SevenZ | Bz2 | Xz | Other
deriving DecidableEq

inductive ExecutableSubcategory
  | WindowsApp | MacApp | LinuxApp | MobileApp | Script | Config | Log | Other
deriving DecidableEq

inductive CodeSubcategory
  | Rust | Python | JavaScript | TypeScript | Java | C | Cpp | Go | Php
  | Swift | Kotlin | Scala | Ruby | Perl | Lua | Haskell | Dart
  | Html | Css | Scss | Sass | Less | Stylus
  | Json | Yaml | Toml | Xml | Ini | Properties
  | Sql | Plsql | Tsql
  | Makefile | Dockerfile | DockerIgnore | GitIgnore
  | Markdown | RestructuredText
  | Other (name : String)
deriving DecidableEq

inductive FileCategory
  | Documents (sub : DocumentSubcategory)
  | Images (sub : ImageSubcategory)
  | Videos (sub : VideoSubcategory)
  | Audio (sub : AudioSubcategory)
  | Archives (sub : ArchiveSubcategory)
  | Executables (sub : ExecutableSubcategory)
  | Code (sub : CodeSubcategory)
  | Others
deriving DecidableEq

/-! ## Path builder (classifiers/path_builder.rs) -/

def DocumentSubcategory.asRef : DocumentSubcategory → String
  | .Pdf => "Pdf"
  | .Word => "Word"
  | .Spreadsheet => "Spreadsheet"
  | .Presentation => "Presentation"
  | .Text => "Text"
  | .OpenDocument => "OpenDocument"
  | .Technical => "Technical"
  | .Ebook => "Ebook"
  | .Other => "Other"

def ImageSubcategory.asRef : ImageSubcategory → String
  | .Jpeg => "Jpeg"
  | .Png => "Png"
  | .Gif => "Gif"
  | .Tiff => "Tiff"
  | .Svg => "Svg"
  | .Raw => "Raw"
  | .Webp => "Webp"
  | .Bmp => "Bmp"
  | .Ico => "Ico"
  | .Heic => "Heic"
  | .Other => "Other"

def VideoSubcategory.asRef : VideoSubcategory → String
  | .Mp4 => "Mp4"
  | .Mkv => "Mkv"
  | .Avi => "Avi"
  | .Mov => "Mov"
  | .Webm => "Webm"
  | .Flv => "Flv"
  | .Mpeg => "Mpeg"
  | .ThreeGp => "3Gp"
  | .Ts => "Ts"
  | .Vob => "Vob"
  | .Wmv => "Wmv"
  | .Other => "Other"

def AudioSubcategory.asRef : AudioSubcategory → String
  | .Mp3 => "Mp3"
  | .Wav => "Wav"
  | .Flac => "Flac"
  | .Ogg => "Ogg"
  | .Aac => "Aac"
  | .M4a => "M4a"
  | .Opus => "Opus"
  | .Alac => "Alac"
  | .Aiff => "Aiff"
  | .Wma => "Wma"
  | .Other => "Other"

def ArchiveSubcategory.asRef : ArchiveSubcategory → String
  | .Zip => "Zip"
  | .Tar => "Tar"
  | .Rar => "Rar"
  | .SevenZ => "7z"
  | .Gz => "Gz"
  | .Bz2 => "Bz2"
  | .Xz => "Xz"
  | .Other => "Other"

def ExecutableSubcategory.asRef : ExecutableSubcategory → String
  | .WindowsApp => "WindowsApp"
  | .MacApp => "MacApp"
  | .LinuxApp => "LinuxApp"
  | .MobileApp => "MobileApp"
  | .Script => "Script"
  | .Config => "Config"
  | .Log => "Log"
  | .Other => "Other"

def CodeSubcategory.asRef : CodeSubcategory → String
  | .Rust => "Rust"
  | .Python => "Python"
  | .JavaScript => "JavaScript"
  | .TypeScript => "TypeScript"
  | .Java => "Java"
  | .C => "C"
  | .Cpp => "C++"
  | .Go => "Go"
  | .Php => "PHP"
  | .Swift => "Swift"
  | .Kotlin => "Kotlin"
  | .Scala => "Scala"
  | .Ruby => "Ruby"
  | .Perl => "Perl"
  | .Lua => "Lua"
  | .Haskell => "Haskell"
  | .Dart => "Dart"
  | .Html => "HTML"
  | .Css => "CSS"
  | .Scss => "SCSS"
  | .Sass => "SASS"
  | .Less => "Less"
  | .Stylus => "Stylus"
  | .Json => "JSON"
  | .Yaml => "YAML"
  | .Toml => "TOML"
  | .Xml => "XML"
  | .Ini => "INI"
  | .Properties => "Properties"
  | .Sql => "SQL"
  | .Plsql => "PL/SQL"
  | .Tsql => "T-SQL"
  | .Makefile => "Makefile"
  | .Dockerfile => "Dockerfile"
  | .DockerIgnore => "DockerIgnore"
  | .GitIgnore => "GitIgnore"
  | .Markdown => "Markdown"
  | .RestructuredText => "reStructuredText"
  | .Other name => name

/-- The first push of PathBuilder::build: the category directory
(note: the Others variant pushes the directory "Others"). -/
def categoryDir : FileCategory → String
  | .Documents _ => "Documents"
  | .Images _ => "Images"
  | .Videos _ => "Videos"
  | .Audio _ => "Audio"
  | .Archives _ => "Archives"
  | .Executables _ => "Executables"
  | .Code _ => "Code"
  | .Others => "Others"

/-- The second push of PathBuilder::build: the subcategory directory,
absent for Others. -/
def subcategoryDirs : FileCategory → List String
  | .Documents sub => [sub.asRef]
  | .Images sub => [sub.asRef]
  | .Videos sub => [sub.asRef]
  | .Audio sub => [sub.asRef]
  | .Archives sub => [sub.asRef]
  | .Executables sub => [sub.asRef]
  | .Code sub => [sub.asRef]
  | .Others => []

/-- PathBuilder::build: base, category directory, subcategory
directory (except Others), then the year directory when a year was
extracted. -/
def pathBuilderBuild (base : List String) (cat : FileCategory)
    (year : Option Int) : List String :=
  base ++ [categoryDir cat] ++ subcategoryDirs cat ++
    (match year with
     | some y => [toString y]
     | none => [])

/-! ## Classifier confidences and extraction

The eight registered classifiers, their confidence tables and the
subcategory each extracts from the lowercased extension
(classifiers/＊_classifier.rs, code_const.rs, executables_const.rs).
String containment is modelled over the character lists. -/

def listStarts {α : Type} [DecidableEq α] : List α → List α → Bool
  | _, [] => true
  | [], _ :: _ => false
  | a :: as, b :: bs => decide (a = b) && listStarts as bs

def listHasSub {α : Type} [DecidableEq α] (pat : List α) : List α → Bool
  | [] => pat.isEmpty
  | a :: as => listStarts (a :: as) pat || listHasSub pat as

/-- str::contains(pattern). -/
def strContainsSub (s pat : String) : Bool :=
  listHasSub pat.toList s.toList

/-- str::starts_with(pattern). -/
def strStarts (s pat : String) : Bool :=
  listStarts s.data pat.data

/-- char::to_ascii_lowercase. -/
def charAsciiLower (c : Char) : Char :=
  if 65 ≤ c.toNat ∧ c.toNat ≤ 90 then Char.ofNat (c.toNat + 32) else c

/-- str::to_ascii_lowercase. -/
def asciiLower (s : String) : String :=
  String.mk (s.data.map charAsciiLower)

inductive ClassifierTag
  | image | audio | video | docs | code | archive | exec | generic
deriving DecidableEq

def CODE_MIME_PATTERNS : List String :=
  ["text/x-", "application/x-", "application/json", "application/xml",
   "text/javascript", "application/javascript", "text/css", "text/html",
   "application/yaml", "application/x-toml", "application/sql"]

def EXECUTABLE_MIME_PATTERNS : List String :=
  ["application/x-msdownload", "application/x-msi",
   "application/x-executable", "application/x-mach-binary",
   "application/vnd.android.package-archive"]

def imageConfidence (ext mime : String) : Nat :=
  if ext ∈ ["jpg", "jpeg", "png", "gif", "svg", "webp", "bmp", "ico"] then 100
  else if ext ∈ ["raw", "cr2", "nef", "arw", "dng", "tiff", "tif"] then 95
  else if ext ∈ ["heic", "heif"] then 85
  else if strStarts mime ("image/") then 90
  else 0

def audioConfidence (ext mime : String) : Nat :=
  if ext ∈ ["mp3", "wav", "flac", "aac", "ogg", "m4a", "opus"] then 100
  else if ext ∈ ["alac", "aiff", "aif", "wma", "pcm", "dsd", "dff",
                 "dsf", "ape", "ac3", "dts", "amr", "ra", "rm", "caf", "weba"] then 80
  else if ext ∈ ["mid", "midi", "xm", "mod", "s3m"] then 60
  else if strStarts mime ("audio/") then 90
  else 0

def videoConfidence (ext mime : String) : Nat :=
  if ext ∈ ["mp4", "mkv", "mov", "webm", "avi", "m4v", "mpg", "mpeg"] then 100
  else if ext ∈ ["wmv", "flv", "3gp", "m2ts", "ts", "mts", "vob", "ogv", "divx"] then 80
  else if strStarts mime ("video/") then 90
  else 0

def docsConfidence (ext mime : String) : Nat :=
  if ext ∈ ["pdf", "doc", "docx", "ppt", "pptx", "xls", "xlsx",
            "odt", "ods", "odp", "docm", "dotx", "dotm", "xlsm",
            "xltx", "xltm", "pptm", "potx", "potm", "ppsx", "ppsm", "epub"] then 100
  else if ext ∈ ["txt", "rtf", "md", "markdown", "tex", "ltx", "sty", "cls", "bib",
                 "odg", "odf", "csv"] then 80
  else if strStarts mime ("application/vnd.") ||
          strContainsSub mime ("word") ||
          strContainsSub mime ("spreadsheet") ||
          strContainsSub mime ("presentation") ||
          strContainsSub mime ("opendocument") ||
          strContainsSub mime ("officedocument") ||
          mime = "application/pdf" ||
          mime = "application/epub+zip" then 90
  else if strStarts mime ("text/") then 70
  else 0

def codeConfidence (ext mime : String) : Nat :=
  if ext ∈ ["rs", "py", "js", "ts", "java", "c", "cpp", "go", "php",
            "swift", "kt", "scala", "rb", "pl", "lua", "hs", "dart"] then 100
  else if ext ∈ ["html", "htm", "css", "scss", "sass", "less", "styl"] then 95
  else if ext ∈ ["json", "yaml", "yml", "toml", "xml", "ini", "conf", "properties"] then 85
  else if ext ∈ ["sql", "plsql", "tsql"] then 80
  else if ext ∈ ["makefile", "mk", "dockerfile", "dockerignore", "gitignore"] then 75
  else if ext ∈ ["md", "markdown", "rst"] then 65
  else if CODE_MIME_PATTERNS.any (fun pattern => strContainsSub mime pattern) then 90
  else if strStarts mime ("text/") then 70
  else 0

def archiveConfidence (ext mime : String) : Nat :=
  if ext ∈ ["zip", "tar", "gz", "rar", "7z", "bz2", "xz", "tgz", "tbz2", "txz"] then 100
  else if ext ∈ ["lz", "lzma", "z", "lzh", "cab", "iso"] then 80
  else if ext ∈ ["dmg", "pkg", "deb", "rpm", "apk", "jar", "war", "ear"] then 60
  else if strContainsSub mime ("zip") || strContainsSub mime ("tar") ||
          strContainsSub mime ("compressed") || strContainsSub mime ("archive") then 90
  else 0

def execConfidence (ext mime : String) : Nat :=
  if ext ∈ ["exe", "msi", "dll", "app", "dmg", "pkg", "dylib",
            "deb", "rpm", "so", "bin", "apk", "ipa"] then 100
  else if ext ∈ ["bat", "cmd", "sh", "ps1"] then 80
  else if ext ∈ ["conf", "ini", "log"] then 60
  else if EXECUTABLE_MIME_PATTERNS.any (fun pattern => strContainsSub mime pattern) then 90
  else 0

/-- Classifier::confidence per registered classifier; the generic
fallback always reports 1. -/
def tagConfidence : ClassifierTag → String → String → Nat
  | .image => imageConfidence
  | .audio => audioConfidence
  | .video => videoConfidence
  | .docs => docsConfidence
  | .code => codeConfidence
  | .archive => archiveConfidence
  | .exec => execConfidence
  | .generic => fun _ _ => 1

def imageSubOf (ext : String) : ImageSubcategory :=
  if ext = "jpg" ∨ ext = "jpeg" then .Jpeg
  else if ext = "png" then .Png
  else if ext = "gif" then .Gif
  else if ext = "svg" then .Svg
  else if ext ∈ ["raw", "cr2", "nef", "arw", "dng"] then .Raw
  else if ext = "tiff" ∨ ext = "tif" then .Tiff
  else if ext = "webp" then .Webp
  else if ext = "bmp" then .Bmp
  else if ext = "ico" then .Ico
  else if ext = "heic" ∨ ext = "heif" then .Heic
  else .Other

def audioSubOf (ext : String) : AudioSubcategory :=
  if ext = "mp3" then .Mp3
  else if ext = "wav" then .Wav
  else if ext = "flac" then .Flac
  else if ext = "aac" then .Aac
  else if ext = "ogg" then .Ogg
  else if ext = "m4a" then .M4a
  else if ext = "opus" then .Opus
  else if ext = "alac" then .Alac
  else if ext = "aiff" ∨ ext = "aif" then .Aiff
  else if ext = "wma" then .Wma
  else .Other

def videoSubOf (ext : String) : VideoSubcategory :=
  if ext = "mp4" ∨ ext = "m4v" then .Mp4
  else if ext = "avi" ∨ ext = "divx" then .Avi
  else if ext = "mkv" then .Mkv
  else if ext = "mov" then .Mov
  else if ext = "webm" ∨ ext = "ogv" then .Webm
  else if ext = "wmv" then .Wmv
  else if ext = "flv" then .Flv
  else if ext = "mpg" ∨ ext = "mpeg" then .Mpeg
  else if ext = "3gp" then .ThreeGp
  else if ext ∈ ["ts", "mts", "m2ts"] then .Ts
  else if ext = "vob" then .Vob
  else .Other

def docsSubOf (ext : String) : DocumentSubcategory :=
  if ext = "pdf" then .Pdf
  else if ext ∈ ["doc", "docx", "docm", "dotx", "dotm", "odt", "rtf"] then .Word
  else if ext ∈ ["xls", "xlsx", "xlsm", "xltx", "xltm", "ods", "csv"] then .Spreadsheet
  else if ext ∈ ["ppt", "pptx", "pptm", "potx", "potm", "ppsx", "ppsm", "odp"] then .Presentation
  else if ext ∈ ["txt", "md", "markdown"] then .Text
  else if ext ∈ ["tex", "ltx", "sty", "cls", "bib"] then .Technical
  else if ext = "odg" ∨ ext = "odf" then .OpenDocument
  else if ext = "epub" then .Ebook
  else .Other

def archiveSubOf (ext : String) : ArchiveSubcategory :=
  if ext = "zip" then .Zip
  else if ext = "tar" then .Tar
  else if ext = "gz" ∨ ext = "tgz" then .Gz
  else if ext = "rar" then .Rar
  else if ext = "7z" then .SevenZ
  else if ext = "bz2" ∨ ext = "tbz2" then .Bz2
  else if ext = "xz" ∨ ext = "txz" then .Xz
  else .Other

/-- EXTENSION_MAP of code_const.rs. -/
def codeExtensionMap (ext : String) : Option CodeSubcategory :=
  if ext = "rs" then some .Rust
  else if ext = "py" then some .Python
  else if ext = "js" then some .JavaScript
  else if ext = "ts" then some .TypeScript
  else if ext = "java" then some .Java
  else if ext = "c" then some .C
  else if ext = "cpp" then some .Cpp
  else if ext = "go" then some .Go
  else if ext = "php" then some .Php
  else if ext = "swift" then some .Swift
  else if ext = "kt" ∨ ext = "kts" then some .Kotlin
  else if ext = "scala" then some .Scala
  else if ext = "rb" then some .Ruby
  else if ext = "pl" ∨ ext = "pm" then some .Perl
  else if ext = "lua" then some .Lua
  else if ext = "hs" then some .Haskell
  else if ext = "dart" then some .Dart
  else if ext = "html" ∨ ext = "htm" then some .Html
  else if ext = "css" then some .Css
  else if ext = "scss" then some .Scss
  else if ext = "sass" then some .Sass
  else if ext = "less" then some .Less
  else if ext = "styl" then some .Stylus
  else if ext = "json" then some .Json
  else if ext = "yaml" ∨ ext = "yml" then some .Yaml
  else if ext = "toml" then some .Toml
  else if ext = "xml" then some .Xml
  else if ext = "ini" ∨ ext = "conf" then some .Ini
  else if ext = "properties" then some .Properties
  else if ext = "sql" then some .Sql
  else if ext = "plsql" then some .Plsql
  else if ext = "tsql" then some .Tsql
  else if ext = "makefile" ∨ ext = "mk" then some .Makefile
  else if ext = "dockerfile" then some .Dockerfile
  else if ext = "dockerignore" then some .DockerIgnore
  else if ext = "gitignore" then some .GitIgnore
  else if ext = "md" ∨ ext = "markdown" then some .Markdown
  else if ext = "rst" then some .RestructuredText
  else none

/-- EXECUTABLE_EXTENSION_MAP of executables_const.rs. -/
def execExtensionMap (ext : String) : Option ExecutableSubcategory :=
  if ext ∈ ["exe", "msi", "dll"] then some .WindowsApp
  else if ext ∈ ["app", "dmg", "pkg", "dylib"] then some .MacApp
  else if ext ∈ ["deb", "rpm", "so", "bin"] then some .LinuxApp
  else if ext = "apk" ∨ ext = "ipa" then some .MobileApp
  else if ext ∈ ["bat", "cmd", "sh", "ps1"] then some .Script
  else if ext = "conf" ∨ ext = "ini" then some .Config
  else if ext = "log" then some .Log
  else none

/-- extract_metadata per classifier, restricted to the category it
returns for a lowercased extension; the generic fallback returns
Others. -/
def extractCategory : ClassifierTag → String → FileCategory
  | .image, ext => .Images (imageSubOf ext)
  | .audio, ext => .Audio (audioSubOf ext)
  | .video, ext => .Videos (videoSubOf ext)
  | .docs, ext => .Documents (docsSubOf ext)
  | .code, ext => .Code ((codeExtensionMap ext).getD (.Other ext))
  | .archive, ext => .Archives (archiveSubOf ext)
  | .exec, ext => .Executables ((execExtensionMap ext).getD .Other)
  | .generic, _ => .Others

/-- utils::create_classifier_registry: the eight classifiers with
their registration priorities, in registration order. -/
def standardRegistrations : List (Nat × ClassifierTag) :=
  [(100, .image), (95, .audio), (90, .video), (85, .docs),
   (80, .code), (75, .archive), (70, .exec), (10, .generic)]

def create_classifier_registry : List (Nat × ClassifierTag) :=
  registerAll standardRegistrations

/-- Modelled from the spec: the MIME lookup collaborator behind
utils::detect_mime is the mime_guess crate (rule-table data outside
this repository); the spec treats it as a pure extension-to-MIME
lookup with an application/octet-stream fallback
(first_or_octet_stream).  The table below covers the extensions
exercised in the concrete scenarios. -/
def detect_mime (ext : String) : String :=
  if ext = "jpg" ∨ ext = "jpeg" then "image/jpeg"
  else if ext = "png" then "image/png"
  else if ext = "txt" then "text/plain"
  else if ext = "pdf" then "application/pdf"
  else if ext = "mp3" then "audio/mpeg"
  else if ext = "mp4" then "video/mp4"
  else if ext = "zip" then "application/zip"
  else "application/octet-stream"

/-! ## The organizer pipeline (engine/organizer.rs) -/

/-- The lowercased extension string classify derives from a path
(empty when the path has no extension). -/
def extLower (p : FsPath) : String :=
  ((p.name.ext).map asciiLower).getD ""

/-- registry.classify: collect candidates with confidence > 0, sort by
weighted score descending (stable), and return the first candidate
(extraction only reads filesystem metadata and succeeds for the files
the pipeline feeds it). -/
def classifyFor (mimeOf : String → String) (p : FsPath) : Option ClassifierTag :=
  ((classifyOrder tagConfidence create_classifier_registry (extLower p)
      (mimeOf (extLower p))).head?).map (fun t => t.1)

/-- The year bucket every non-generic classifier extracts: the year of
the modified timestamp, falling back to the created timestamp; the
generic fallback leaves the year unset.  yearOf converts an epoch
timestamp to its calendar year (chrono collaborator). -/
def yearFor (yearOf : Int → Int) (tag : ClassifierTag) (raw : RawMeta) :
    Option Int :=
  match tag with
  | .generic => none
  | _ => (raw.modified <|> raw.created).map yearOf

/-- The label recorded in the index for a category
(classified.category.to_string()); its value is irrelevant to every
claim, the category directory name is used as the label. -/
def categoryDisplay (c : FileCategory) : String :=
  categoryDir c

/-- The destination path computed by process_file: PathBuilder with
base root/Organized, then push the original file name. -/
def destinationFor (root : List String) (cat : FileCategory)
    (year : Option Int) (p : FsPath) : FsPath :=
  { dirs := pathBuilderBuild (root ++ ["Organized"]) cat year
    name := p.name }

/-- handle_file_movement: hash the source; if nothing exists at the
destination move there; if the destination holds an identical hash,
record without moving; otherwise resolve the conflict (overwrite
false) and move to the disambiguated path. -/
def handle_file_movement (hashFn : List Nat → String) (fuel : Nat)
    (fs : Fs) (raw : RawMeta) (category : String) (destination : FsPath) :
    Option (Fs × Entry) :=
  match lookupFile fs raw.path with
  | none => none
  | some srcData =>
      let source_hash := hashFn srcData.content
      match lookupFile fs destination with
      | none =>
          (moveFile fs raw.path destination).map (fun fs2 =>
            (fs2, { raw := raw, category := category,
                    dest := destination, hash := source_hash }))
      | some destData =>
          if hashFn destData.content = source_hash then
            some (fs, { raw := raw, category := category,
                        dest := destination, hash := source_hash })
          else
            (resolve_conflict fs destination false fuel).bind (fun rp =>
              (moveFile rp.2 raw.path rp.1).map (fun fs2 =>
                (fs2, { raw := raw, category := category,
                        dest := rp.1, hash := source_hash })))

/-- process_file: classify, build the destination, then either record
the planned move (dry-run) or perform the movement. -/
def process_file (hashFn : List Nat → String) (mimeOf : String → String)
    (yearOf : Int → Int) (fuel : Nat) (root : List String) (fs : Fs)
    (raw : RawMeta) (dryRun : Bool) : Option (Fs × Entry) :=
  match classifyFor mimeOf raw.path with
  | none => none
  | some tag =>
      let category := extractCategory tag (extLower raw.path)
      let destination := destinationFor root category (yearFor yearOf tag raw) raw.path
      if dryRun then
        some (fs, { raw := raw, category := categoryDisplay category,
                    dest := destination, hash := "dry-run" })
      else
        handle_file_movement hashFn fuel fs raw (categoryDisplay category) destination

/-- Scanner output restricted by scan_files: regular files directly
under the root directory, hidden names excluded by the default scan
configuration.  Every entry of the modelled filesystem is a regular
file. -/
def scanFiles (fs : Fs) (root : List String) : List (FsPath × FileData) :=
  fs.filter (fun e =>
    decide (e.1.dirs = root) && !(strStarts e.1.name.render (".")))

def rawOf (p : FsPath) (d : FileData) : RawMeta :=
  { path := p, size := d.content.length, created := d.created,
    modified := d.modified, accessed := d.accessed }

def scanList (fs : Fs) (root : List String) : List RawMeta :=
  (scanFiles fs root).map (fun e => rawOf e.1 e.2)

/-- The per-file pipelines in sequence (the bounded concurrency of
process_files_concurrently interleaves them; the sequential fold is
one admissible schedule); any per-file failure aborts the run. -/
def organizeGo (hashFn : List Nat → String) (mimeOf : String → String)
    (yearOf : Int → Int) (fuel : Nat) (root : List String)
    (dryRun : Bool) : Fs × List Entry → List RawMeta → Option (Fs × List Entry)
  | st, [] => some st
  | st, raw :: rest =>
      (process_file hashFn mimeOf yearOf fuel root st.1 raw dryRun).bind
        (fun fe => organizeGo hashFn mimeOf yearOf fuel root dryRun
          (fe.1, st.2 ++ [fe.2]) rest)

/-- organise_files: scan the top level, run the per-file pipelines,
then batch-persist the results — into the persistent index only in
live mode; dry-run uses an in-memory throwaway database, so the
persistent index is left untouched. -/
def organise_files (hashFn : List Nat → String) (mimeOf : String → String)
    (yearOf : Int → Int) (fuel : Nat) (fs : Fs) (idx : List IndexRow)
    (root : List String) (dryRun : Bool) :
    Option (Fs × List IndexRow × List Entry) :=
  (organizeGo hashFn mimeOf yearOf fuel root dryRun (fs, []) (scanList fs root)).map
    (fun st =>
      if dryRun then (st.1, idx, st.2)
      else (st.1, update_files_batch idx st.2, st.2))

/-! ## The reverter (engine/reverter.rs) -/

/-- should_skip_file: skip when the original path is occupied and its
content hash equals the hash of the file at the recorded destination
(hashing a missing destination file is an error). -/
def should_skip_file (hashFn : List Nat → String) (fs : Fs)
    (source original : FsPath) : Option Bool :=
  match lookupFile fs original with
  | none => some false
  | some od =>
      (lookupFile fs source).map
        (fun sd => decide (hashFn sd.content = hashFn od.content))

/-- One candidate record of revert_files: skip when the destination is
gone, already equals the original, or the original holds identical
content; otherwise resolve a conflict at the original (overwrite),
move the file back and update the dest_path of this record in its own
per-record transaction. -/
def revertStep (hashFn : List Nat → String) (fuel : Nat)
    (st : Fs × List IndexRow) (rec : IndexRow) : Option (Fs × List IndexRow) :=
  let source := rec.dest_path
  let original := rec.path
  if existsFile st.1 source = false then some st
  else if source = original then some st
  else
    (should_skip_file hashFn st.1 source original).bind (fun skip =>
      if skip then some st
      else
        (if existsFile st.1 original then resolve_conflict st.1 original true fuel
         else some (original, st.1)).bind (fun fp =>
          (moveFile fp.2 source fp.1).map (fun fs2 =>
            (fs2, st.2.map (fun r =>
              if r.path = rec.path then { r with dest_path := fp.1 } else r)))))

/-- Db::get_all_files: all rows ordered by recency (updated_at
descending); rows written later in a run carry timestamps at least as
large, so recency order is the reverse of insertion order. -/
def get_all_files (idx : List IndexRow) : List IndexRow :=
  idx.reverse

/-- Deduplicate by destination, first seen wins. -/
def dedupByDest (seen : List FsPath) : List IndexRow → List IndexRow
  | [] => []
  | r :: rs =>
      if r.dest_path ∈ seen then dedupByDest seen rs
      else r :: dedupByDest (r.dest_path :: seen) rs

def revertGo (hashFn : List Nat → String) (fuel : Nat) :
    Fs × List IndexRow → List IndexRow → Option (Fs × List IndexRow)
  | st, [] => some st
  | st, r :: rs =>
      (revertStep hashFn fuel st r).bind (fun st2 => revertGo hashFn fuel st2 rs)

/-- revert_files: load all records whose destination lies under the
root, deduplicate by destination, and process them in sequence
(directory cleanup only removes empty directories and is outside the
file-level model). -/
def revert_files (hashFn : List Nat → String) (fuel : Nat) (fs : Fs)
    (idx : List IndexRow) (root : List String) : Option (Fs × List IndexRow) :=
  revertGo hashFn fuel (fs, idx)
    (dedupByDest []
      ((get_all_files idx).filter
        (fun r => root.isPrefixOf r.dest_path.components)))

/-! ## Trace lemmas for the pipeline -/

/-- What a successful overwrite=false resolution guarantees: the
filesystem is untouched, the returned path is free, it lives in the
same parent directory, and it is the path itself or a numbered
candidate. -/
theorem resolve_conflict_false_trace (fs : Fs) (p : FsPath) (fuel : Nat)
    (q : FsPath) (fs2 : Fs)
    (h : resolve_conflict fs p false fuel = some (q, fs2)) :
    fs2 = fs ∧ lookupFile fs q = none ∧ q.dirs = p.dirs := by
  by_cases hex : existsFile fs p
  · rw [resolve_conflict, if_neg (by simp), if_pos hex] at h
    cases hp : probeFrom fs p fuel 1 with
    | none => rw [hp] at h; exact absurd h (by simp)
    | some r =>
        rw [hp] at h
        have h2 := Option.some.inj h
        have hq : r = q := congrArg Prod.fst h2
        have hfs : fs = fs2 := congrArg Prod.snd h2
        obtain ⟨m, _, hr, hfree, _⟩ := probeFrom_spec fs p fuel 1 r hp
        subst hq
        refine ⟨hfs.symm, ?_, ?_⟩
        · rw [hr]
          exact (existsFile_false_iff fs _).mp hfree
        · rw [hr]
          rfl
  · rw [resolve_conflict, if_neg (by simp), if_neg hex] at h
    have h2 := Option.some.inj h
    have hq : p = q := congrArg Prod.fst h2
    have hfs : fs = fs2 := congrArg Prod.snd h2
    subst hq
    exact ⟨hfs.symm, (existsFile_false_iff fs p).mp (by simpa using hex), rfl⟩

/-- The full case analysis of a successful handle_file_movement call. -/
theorem handle_file_movement_trace (hashFn : List Nat → String) (fuel : Nat)
    (fs : Fs) (raw : RawMeta) (category : String) (destination : FsPath)
    (fsr : Fs) (en : Entry)
    (h : handle_file_movement hashFn fuel fs raw category destination
        = some (fsr, en)) :
    ∃ d, lookupFile fs raw.path = some d ∧ en.raw = raw ∧
      en.category = category ∧ en.hash = hashFn d.content ∧
      ((lookupFile fs destination = none ∧ en.dest = destination ∧
          fsr = setFile (eraseFile fs raw.path) destination d) ∨
       (∃ dd, lookupFile fs destination = some dd ∧
          hashFn dd.content = hashFn d.content ∧ en.dest = destination ∧
          fsr = fs) ∨
       (∃ dd, lookupFile fs destination = some dd ∧
          hashFn dd.content ≠ hashFn d.content ∧
          lookupFile fs en.dest = none ∧ en.dest.dirs = destination.dirs ∧
          fsr = setFile (eraseFile fs raw.path) en.dest d)) := by
  rw [handle_file_movement] at h
  cases hsrc : lookupFile fs raw.path with
  | none => rw [hsrc] at h; exact absurd h (by simp)
  | some d =>
      simp only [hsrc] at h
      refine ⟨d, rfl, ?_⟩
      cases hdst : lookupFile fs destination with
      | none =>
          simp only [hdst] at h
          rw [moveFile_some fs raw.path destination d hsrc] at h
          have h2 := Option.some.inj h
          have hfs : setFile (eraseFile fs raw.path) destination d = fsr :=
            congrArg Prod.fst h2
          have hen := congrArg Prod.snd h2
          subst hen
          exact ⟨rfl, rfl, rfl, Or.inl ⟨rfl, rfl, hfs.symm⟩⟩
      | some dd =>
          simp only [hdst] at h
          by_cases heq : hashFn dd.content = hashFn d.content
          · rw [if_pos heq] at h
            have h2 := Option.some.inj h
            have hfs : fs = fsr := congrArg Prod.fst h2
            have hen := congrArg Prod.snd h2
            subst hen
            exact ⟨rfl, rfl, rfl, Or.inr (Or.inl ⟨dd, rfl, heq, rfl, hfs.symm⟩)⟩
          · rw [if_neg heq] at h
            cases hres : resolve_conflict fs destination false fuel with
            | none => rw [hres] at h; exact absurd h (by simp)
            | some rp =>
                rw [hres] at h
                obtain ⟨hfs2, hfree, hdirs⟩ :=
                  resolve_conflict_false_trace fs destination fuel rp.1 rp.2 hres
                simp only [Option.some_bind] at h
                rw [hfs2, moveFile_some fs raw.path rp.1 d hsrc] at h
                have h2 := Option.some.inj h
                have hfs : setFile (eraseFile fs raw.path) rp.1 d = fsr :=
                  congrArg Prod.fst h2
                have hen := congrArg Prod.snd h2
                subst hen
                exact ⟨rfl, rfl, rfl,
                  Or.inr (Or.inr ⟨dd, rfl, heq, hfree, hdirs, hfs.symm⟩)⟩

/-- C2: per-file live movement.  Given the source file exists: if
nothing is at the destination the file is moved there and the entry
records the destination with the source hash; if the destination holds
content with the same hash, the entry records the existing destination
and nothing moves; if the hashes differ, the resolver (overwrite
false) provides the final path and the file is moved there. -/
theorem handle_file_movement_spec (hashFn : List Nat → String) (fuel : Nat)
    (fs : Fs) (raw : RawMeta) (category : String) (destination : FsPath)
    (srcData : FileData) (hsrc : lookupFile fs raw.path = some srcData) :
    (lookupFile fs destination = none →
      handle_file_movement hashFn fuel fs raw category destination
        = some (setFile (eraseFile fs raw.path) destination srcData,
            { raw := raw, category := category, dest := destination,
              hash := hashFn srcData.content })) ∧
    (∀ destData, lookupFile fs destination = some destData →
      hashFn destData.content = hashFn srcData.content →
      handle_file_movement hashFn fuel fs raw category destination
        = some (fs,
            { raw := raw, category := category, dest := destination,
              hash := hashFn srcData.content })) ∧
    (∀ destData q fs2, lookupFile fs destination = some destData →
      hashFn destData.content ≠ hashFn srcData.content →
      resolve_conflict fs destination false fuel = some (q, fs2) →
      handle_file_movement hashFn fuel fs raw category destination
        = some (setFile (eraseFile fs raw.path) q srcData,
            { raw := raw, category := category, dest := q,
              hash := hashFn srcData.content })) := by
  refine ⟨?_, ?_, ?_⟩
  · intro hdst
    simp [handle_file_movement, hsrc, hdst,
      moveFile_some fs raw.path destination srcData hsrc]
  · intro destData hdst heq
    simp [handle_file_movement, hsrc, hdst, heq]
  · intro destData q fs2 hdst hne hres
    obtain ⟨hfs2, _, _⟩ :=
      resolve_conflict_false_trace fs destination fuel q fs2 hres
    subst hfs2
    simp only [handle_file_movement, hsrc, hdst, hne, hres, if_neg hne,
      Option.some_bind]
    rw [moveFile_some _ raw.path q srcData hsrc]
    simp

/-- Witness for C2: a concrete conflicting movement — the destination
is occupied by different content, so the file moves to the first
numbered candidate. -/
theorem handle_file_movement_spec_witness :
    (let src : FsPath := { dirs := ["r"], name := { stem := "a", ext := some "txt" } }
     let dst : FsPath := { dirs := ["r", "Organized"], name := { stem := "a", ext := some "txt" } }
     let sD : FileData := { content := [1], created := none, modified := none, accessed := none }
     let dD : FileData := { content := [2], created := none, modified := none, accessed := none }
     let raw : RawMeta := { path := src, size := 1, created := none, modified := none, accessed := none }
     let fs : Fs := [(src, sD), (dst, dD)]
     handle_file_movement (fun c => toString c) 3 fs raw "Documents" dst
       = some (setFile (eraseFile fs src) (candidatePath dst 1) sD,
           { raw := raw, category := "Documents", dest := candidatePath dst 1,
             hash := toString sD.content })) := by
  intro src dst sD dD raw fs
  exact (handle_file_movement_spec (fun c => toString c) 3 fs raw
    "Documents" dst sD (by decide)).2.2 dD (candidatePath dst 1) fs
    (by decide) (by decide) (by decide)

theorem process_file_dry_fs (hashFn : List Nat → String)
    (mimeOf : String → String) (yearOf : Int → Int) (fuel : Nat)
    (root : List String) (fs : Fs) (raw : RawMeta) (fs2 : Fs) (en : Entry)
    (h : process_file hashFn mimeOf yearOf fuel root fs raw true
        = some (fs2, en)) : fs2 = fs := by
  rw [process_file] at h
  cases hc : classifyFor mimeOf raw.path with
  | none => rw [hc] at h; exact absurd h (by simp)
  | some tag =>
      simp only [hc, if_pos] at h
      exact (congrArg Prod.fst (Option.some.inj h)).symm

theorem organizeGo_dry_fs (hashFn : List Nat → String)
    (mimeOf : String → String) (yearOf : Int → Int) (fuel : Nat)
    (root : List String) :
    ∀ (l : List RawMeta) (st res : Fs × List Entry),
      organizeGo hashFn mimeOf yearOf fuel root true st l = some res →
      res.1 = st.1 := by
  intro l
  induction l with
  | nil =>
      intro st res h
      rw [organizeGo] at h
      rw [← Option.some.inj h]
  | cons raw rest ih =>
      intro st res h
      rw [organizeGo] at h
      cases hp : process_file hashFn mimeOf yearOf fuel root st.1 raw true with
      | none => rw [hp] at h; exact absurd h (by simp)
      | some fe =>
          rw [hp, Option.some_bind] at h
          rw [ih _ res h]
          exact process_file_dry_fs hashFn mimeOf yearOf fuel root st.1 raw
            fe.1 fe.2 (by rw [← hp])

/-- C8: dry-run purity — a dry-run organise pass leaves the
filesystem and the persistent index exactly as they were; only the
planned (entry, category, destination) list is produced. -/
theorem organize_dry_run_pure (hashFn : List Nat → String)
    (mimeOf : String → String) (yearOf : Int → Int) (fuel : Nat)
    (fs : Fs) (idx : List IndexRow) (root : List String)
    (st : Fs × List IndexRow × List Entry)
    (h : organise_files hashFn mimeOf yearOf fuel fs idx root true = some st) :
    st.1 = fs ∧ st.2.1 = idx := by
  rw [organise_files] at h
  cases hg : organizeGo hashFn mimeOf yearOf fuel root true (fs, [])
      (scanList fs root) with
  | none => rw [hg] at h; exact absurd h (by simp)
  | some r =>
      rw [hg] at h
      have hst := Option.some.inj h
      simp only [if_true] at hst
      constructor
      · rw [← hst]
        exact organizeGo_dry_fs hashFn mimeOf yearOf fuel root
          (scanList fs root) (fs, []) r hg
      · rw [← hst]

/-- Witness for C8: a concrete dry run over one file changes neither
the filesystem nor the index. -/
theorem organize_dry_run_pure_witness :
    (let p : FsPath := { dirs := ["r"], name := { stem := "a", ext := some "txt" } }
     let d : FileData := { content := [1], created := none, modified := none, accessed := none }
     let fs : Fs := [(p, d)]
     ∀ st, organise_files (fun c => toString c) detect_mime (fun _ => 2023) 3
         fs [] ["r"] true = some st → st.1 = fs ∧ st.2.1 = []) := by
  intro p d fs st h
  exact organize_dry_run_pure (fun c => toString c) detect_mime
    (fun _ => 2023) 3 fs [] ["r"] st h

theorem scanList_mem (fs : Fs) (root : List String) (r : RawMeta)
    (h : r ∈ scanList fs root) :
    r.path.dirs = root ∧ ∃ d, (r.path, d) ∈ fs ∧ r = rawOf r.path d := by
  rw [scanList] at h
  rcases List.mem_map.mp h with ⟨e, he, hr⟩
  rw [scanFiles] at he
  have hmem := List.mem_of_mem_filter he
  have hcond := List.of_mem_filter he
  simp only [Bool.and_eq_true, decide_eq_true_eq] at hcond
  subst hr
  exact ⟨hcond.1, e.2, hmem, rfl⟩

theorem process_file_raw_eq (hashFn : List Nat → String)
    (mimeOf : String → String) (yearOf : Int → Int) (fuel : Nat)
    (root : List String) (fs : Fs) (raw : RawMeta) (dryRun : Bool)
    (fs2 : Fs) (en : Entry)
    (h : process_file hashFn mimeOf yearOf fuel root fs raw dryRun
        = some (fs2, en)) : en.raw = raw := by
  rw [process_file] at h
  cases hc : classifyFor mimeOf raw.path with
  | none => rw [hc] at h; exact absurd h (by simp)
  | some tag =>
      simp only [hc] at h
      cases dryRun with
      | true =>
          simp only [if_pos, Option.some.injEq, Prod.mk.injEq] at h
          rw [← h.2]
      | false =>
          simp only [Bool.false_eq_true, if_false] at h
          obtain ⟨d, _, hraw, _⟩ := handle_file_movement_trace hashFn fuel fs
            raw _ _ fs2 en h
          exact hraw

theorem organizeGo_entries_from (hashFn : List Nat → String)
    (mimeOf : String → String) (yearOf : Int → Int) (fuel : Nat)
    (root : List String) (dryRun : Bool) :
    ∀ (l : List RawMeta) (st res : Fs × List Entry),
      organizeGo hashFn mimeOf yearOf fuel root dryRun st l = some res →
      ∀ en ∈ res.2, en ∈ st.2 ∨ en.raw ∈ l := by
  intro l
  induction l with
  | nil =>
      intro st res h en hen
      rw [organizeGo] at h
      rw [← Option.some.inj h] at hen
      exact Or.inl hen
  | cons raw rest ih =>
      intro st res h en hen
      rw [organizeGo] at h
      cases hp : process_file hashFn mimeOf yearOf fuel root st.1 raw dryRun with
      | none => rw [hp] at h; exact absurd h (by simp)
      | some fe =>
          rw [hp, Option.some_bind] at h
          rcases ih _ res h en hen with hacc | hrest
          · rcases List.mem_append.mp hacc with h1 | h2
            · exact Or.inl h1
            · right
              rcases List.mem_singleton.mp h2 with rfl
              rw [process_file_raw_eq hashFn mimeOf yearOf fuel root st.1 raw
                dryRun fe.1 fe.2 (by rw [← hp])]
              exact List.mem_cons_self raw rest
          · exact Or.inr (List.mem_cons_of_mem raw hrest)

/-- C10: scan scope — in both modes only regular files whose parent
directory is exactly the root are scanned, every processed entry stems
from such a file, and no file lying in a proper subdirectory of the
root is ever classified, moved or recorded. -/
theorem scan_scope_spec (hashFn : List Nat → String)
    (mimeOf : String → String) (yearOf : Int → Int) (fuel : Nat)
    (fs : Fs) (idx : List IndexRow) (root : List String) (dryRun : Bool)
    (st : Fs × List IndexRow × List Entry)
    (h : organise_files hashFn mimeOf yearOf fuel fs idx root dryRun = some st) :
    (∀ r ∈ scanList fs root, r.path.dirs = root) ∧
    (∀ en ∈ st.2.2, en.raw ∈ scanList fs root ∧ en.raw.path.dirs = root) ∧
    (∀ en ∈ st.2.2, ∀ sub : List String, sub ≠ [] →
      en.raw.path.dirs ≠ root ++ sub) := by
  have hmem : ∀ en ∈ st.2.2, en.raw ∈ scanList fs root := by
    rw [organise_files] at h
    cases hg : organizeGo hashFn mimeOf yearOf fuel root dryRun (fs, [])
        (scanList fs root) with
    | none => rw [hg] at h; exact absurd h (by simp)
    | some r =>
        rw [hg] at h
        have hst := Option.some.inj h
        have h2 : st.2.2 = r.2 := by
          rw [← hst]
          cases dryRun <;> simp
        intro en hen
        rw [h2] at hen
        rcases organizeGo_entries_from hashFn mimeOf yearOf fuel root dryRun
          (scanList fs root) (fs, []) r hg en hen with hacc | hl
        · exact absurd hacc (by simp)
        · exact hl
  refine ⟨fun r hr => (scanList_mem fs root r hr).1, ?_, ?_⟩
  · intro en hen
    exact ⟨hmem en hen, (scanList_mem fs root en.raw (hmem en hen)).1⟩
  · intro en hen sub hsub hdirs
    have := (scanList_mem fs root en.raw (hmem en hen)).1
    rw [this] at hdirs
    have hlen := congrArg List.length hdirs
    rw [List.length_append] at hlen
    have hpos := List.length_pos.mpr hsub
    omega

/-- Witness for C10: a concrete run over a root holding one top-level
file and one file in a subdirectory processes only the top-level
file. -/
theorem scan_scope_spec_witness :
    (let p : FsPath := { dirs := ["r"], name := { stem := "a", ext := some "txt" } }
     let q : FsPath := { dirs := ["r", "sub"], name := { stem := "b", ext := some "txt" } }
     let d : FileData := { content := [1], created := none, modified := none, accessed := none }
     let fs : Fs := [(p, d), (q, d)]
     ∀ st, organise_files (fun c => toString c) detect_mime (fun _ => 2023) 3
         fs [] ["r"] false = some st →
       ∀ en ∈ st.2.2, en.raw.path.dirs = ["r"]) := by
  intro p q d fs st h en hen
  exact ((scan_scope_spec (fun c => toString c) detect_mime (fun _ => 2023) 3
    fs [] ["r"] false st h).2.1 en hen).2

/-- Exhaustive evaluation of revertStep on one candidate record. -/
theorem revertStep_eval (hashFn : List Nat → String) (fuel : Nat)
    (st : Fs × List IndexRow) (rec : IndexRow) :
    (lookupFile st.1 rec.dest_path = none →
      revertStep hashFn fuel st rec = some st) ∧
    (rec.dest_path = rec.path →
      revertStep hashFn fuel st rec = some st) ∧
    (∀ dd od, lookupFile st.1 rec.dest_path = some dd →
      rec.dest_path ≠ rec.path →
      lookupFile st.1 rec.path = some od →
      hashFn dd.content = hashFn od.content →
      revertStep hashFn fuel st rec = some st) ∧
    (∀ dd, lookupFile st.1 rec.dest_path = some dd →
      rec.dest_path ≠ rec.path →
      lookupFile st.1 rec.path = none →
      revertStep hashFn fuel st rec
        = some (setFile (eraseFile st.1 rec.dest_path) rec.path dd,
            st.2.map (fun r =>
              if r.path = rec.path then { r with dest_path := rec.path }
              else r))) ∧
    (∀ dd od, lookupFile st.1 rec.dest_path = some dd →
      rec.dest_path ≠ rec.path →
      lookupFile st.1 rec.path = some od →
      hashFn dd.content ≠ hashFn od.content →
      revertStep hashFn fuel st rec
        = some (setFile (eraseFile (eraseFile st.1 rec.path) rec.dest_path)
              rec.path dd,
            st.2.map (fun r =>
              if r.path = rec.path then { r with dest_path := rec.path }
              else r))) := by
  refine ⟨?_, ?_, ?_, ?_, ?_⟩
  · intro hdst
    rw [revertStep]
    simp [existsFile, hdst]
  · intro heq
    rw [revertStep]
    by_cases hex : existsFile st.1 rec.dest_path = false
    · simp [hex]
    · simp [hex, heq]
  · intro dd od hdst hne hod heq
    rw [revertStep]
    have hex : existsFile st.1 rec.dest_path = true := by
      simp [existsFile, hdst]
    simp only [hex, Bool.true_eq_false, if_false, if_neg hne,
      should_skip_file, hod, hdst, Option.map_some]
    simp [heq]
  · intro dd hdst hne hnone
    rw [revertStep]
    have hex : existsFile st.1 rec.dest_path = true := by
      simp [existsFile, hdst]
    have hexorig : existsFile st.1 rec.path = false := by
      simp [existsFile, hnone]
    simp only [hex, Bool.true_eq_false, if_false, if_neg hne,
      should_skip_file, hnone, Option.some_bind, Bool.false_eq_true,
      hexorig, Option.some_bind]
    rw [moveFile_some st.1 rec.dest_path rec.path dd hdst]
    simp
  · intro dd od hdst hne hod hneq
    rw [revertStep]
    have hex : existsFile st.1 rec.dest_path = true := by
      simp [existsFile, hdst]
    have hexorig : existsFile st.1 rec.path = true := by
      simp [existsFile, hod]
    have hskip : should_skip_file hashFn st.1 rec.dest_path rec.path
        = some false := by
      rw [should_skip_file, hod, hdst]
      simp [hneq]
    have hres : resolve_conflict st.1 rec.path true fuel
        = some (rec.path, eraseFile st.1 rec.path) := by
      rw [resolve_conflict, if_pos rfl]
    have hlook : lookupFile (eraseFile st.1 rec.path) rec.dest_path = some dd := by
      rw [lookupFile_erase_ne st.1 rec.path rec.dest_path hne]
      exact hdst
    simp only [hex, Bool.true_eq_false, if_false, if_neg hne, hskip,
      Option.some_bind, Bool.false_eq_true, hexorig, if_pos, hres]
    rw [moveFile_some _ rec.dest_path rec.path dd hlook]
    simp

/-- C7: reverter skip rules on one candidate record: the record is
skipped — the state is returned unchanged — exactly when the recorded
destination no longer exists, or equals the recorded original path, or
the original path is occupied by content whose hash equals the
destination content hash; in the remaining cases the file is moved
back to the original path (deleting a different-content occupant
first) and exactly the dest_path of this record is rewritten to the final
path in its own per-record index update. -/
theorem revert_step_skip_spec (hashFn : List Nat → String) (fuel : Nat)
    (st : Fs × List IndexRow) (rec : IndexRow) :
    (lookupFile st.1 rec.dest_path = none →
      revertStep hashFn fuel st rec = some st) ∧
    (rec.dest_path = rec.path →
      revertStep hashFn fuel st rec = some st) ∧
    (∀ dd od, lookupFile st.1 rec.dest_path = some dd →
      rec.dest_path ≠ rec.path →
      lookupFile st.1 rec.path = some od →
      hashFn dd.content = hashFn od.content →
      revertStep hashFn fuel st rec = some st) ∧
    (∀ dd, lookupFile st.1 rec.dest_path = some dd →
      rec.dest_path ≠ rec.path →
      lookupFile st.1 rec.path = none →
      revertStep hashFn fuel st rec
        = some (setFile (eraseFile st.1 rec.dest_path) rec.path dd,
            st.2.map (fun r =>
              if r.path = rec.path then { r with dest_path := rec.path }
              else r))) ∧
    (∀ dd od, lookupFile st.1 rec.dest_path = some dd →
      rec.dest_path ≠ rec.path →
      lookupFile st.1 rec.path = some od →
      hashFn dd.content ≠ hashFn od.content →
      revertStep hashFn fuel st rec
        = some (setFile (eraseFile (eraseFile st.1 rec.path) rec.dest_path)
              rec.path dd,
            st.2.map (fun r =>
              if r.path = rec.path then { r with dest_path := rec.path }
              else r))) :=
  revertStep_eval hashFn fuel st rec

/-- Witness for C7: a concrete record whose destination exists while
the original path is free is moved back and its row rewritten. -/
theorem revert_step_skip_spec_witness :
    (let orig : FsPath := { dirs := ["r"], name := { stem := "a", ext := some "txt" } }
     let dst : FsPath := { dirs := ["r", "Organized"], name := { stem := "a", ext := some "txt" } }
     let d : FileData := { content := [1], created := none, modified := none, accessed := none }
     let rec0 : IndexRow := { path := orig, size := 1, created := none,
                              modified := none, accessed := none,
                              category := some "Documents",
                              dest_path := dst, hash := some "h" }
     let fs : Fs := [(dst, d)]
     revertStep (fun c => toString c) 3 (fs, [rec0]) rec0
       = some (setFile (eraseFile fs dst) orig d,
           [{ rec0 with dest_path := orig }])) := by
  intro orig dst d rec0 fs
  have h := (revert_step_skip_spec (fun c => toString c) 3 (fs, [rec0]) rec0).2.2.2.1
    d (by decide) (by decide) (by decide)
  rw [h]
  decide

/-! ## The concrete two-file scenario (spec section 8)

A root directory holding a.jpg, a.txt and a.xyz (ordinary files with a
modified timestamp whose calendar year is 2023), the standard
classifier set registered, live mode. -/

def c9Jpg : FsPath := { dirs := ["home"], name := { stem := "a", ext := some "jpg" } }

def c9Txt : FsPath := { dirs := ["home"], name := { stem := "a", ext := some "txt" } }

def c9Xyz : FsPath := { dirs := ["home"], name := { stem := "a", ext := some "xyz" } }

def c9DataJ : FileData :=
  { content := [1], created := none, modified := some 1700000000, accessed := none }

def c9DataT : FileData :=
  { content := [2], created := none, modified := some 1700000000, accessed := none }

def c9DataX : FileData :=
  { content := [3], created := none, modified := some 1700000000, accessed := none }

def c9Fs : Fs := [(c9Jpg, c9DataJ), (c9Txt, c9DataT), (c9Xyz, c9DataX)]

/-- The calendar year of the concrete timestamp (chrono collaborator
evaluated at 1700000000 s, i.e. November 2023). -/
def c9Year : Int → Int := fun _ => 2023

def c9Hash : List Nat → String := fun c => toString c

def c9Run : Option (Fs × List IndexRow × List Entry) :=
  organise_files c9Hash detect_mime c9Year 5 c9Fs [] ["home"] false

/-- The destination the spec claims for a.jpg. -/
def c9JpgClaimed : FsPath :=
  { dirs := ["home", "Organized", "Images", "Jpeg"]
    name := { stem := "a", ext := some "jpg" } }

/-- The destination the spec claims for a.txt. -/
def c9TxtClaimed : FsPath :=
  { dirs := ["home", "Organized", "Other"]
    name := { stem := "a", ext := some "txt" } }

/-- Where the code puts a.jpg. -/
def c9JpgActual : FsPath :=
  { dirs := ["home", "Organized", "Images", "Jpeg", "2023"]
    name := { stem := "a", ext := some "jpg" } }

/-- Where the code puts a.txt. -/
def c9TxtActual : FsPath :=
  { dirs := ["home", "Organized", "Documents", "Text", "2023"]
    name := { stem := "a", ext := some "txt" } }

/-- Where the code puts a.xyz. -/
def c9XyzActual : FsPath :=
  { dirs := ["home", "Organized", "Others"]
    name := { stem := "a", ext := some "xyz" } }

/-- C9 counterexample: organize does NOT move a.jpg to
Organized/Images/Jpeg/a.jpg nor a.txt to Organized/Other/a.txt.
Every classifier buckets by year, so a.jpg lands under
Organized/Images/Jpeg/2023/; a.txt is claimed by the document
classifier (confidence 80), not only by the generic fallback, and
lands under Organized/Documents/Text/2023/; and the generic category
directory is spelled "Others", not "Other". -/
theorem concrete_scenario_counterexample :
    (c9Run.map (fun st =>
        (lookupFile st.1 c9JpgClaimed, lookupFile st.1 c9TxtClaimed,
         lookupFile st.1 c9JpgActual, lookupFile st.1 c9TxtActual)))
      = some (none, none, some c9DataJ, some c9DataT) ∧
    classifyFor detect_mime c9Txt = some ClassifierTag.docs ∧
    tagConfidence ClassifierTag.docs ("txt") ("text/plain") = 80 := by
  refine ⟨by decide, by decide, by decide⟩

/-- C9 amended: in the concrete scenario a.jpg is classified
Images/Jpeg and moved to Organized/Images/Jpeg/2023/a.jpg (the year of
its modified timestamp); a.txt is claimed by the document classifier —
weighted 85 * 80 = 6800, ahead of the code classifier (80 * 70 = 5600)
and the generic fallback (10 * 1 = 10) — and moved to
Organized/Documents/Text/2023/a.txt; a.xyz, claimed only by the
generic fallback, is moved to Organized/Others/a.xyz with no year
directory. -/
theorem concrete_scenario_amended :
    (c9Run.map (fun st => st.2.2.map (fun e => e.dest)))
      = some [c9JpgActual, c9TxtActual, c9XyzActual] ∧
    (c9Run.map (fun st =>
        (lookupFile st.1 c9Jpg, lookupFile st.1 c9Txt, lookupFile st.1 c9Xyz,
         lookupFile st.1 c9XyzActual)))
      = some (none, none, none, some c9DataX) ∧
    (classifyOrder tagConfidence create_classifier_registry ("txt")
        ("text/plain")).map (fun t => (t.1, t.2.1))
      = [(ClassifierTag.docs, 6800), (ClassifierTag.code, 5600),
         (ClassifierTag.generic, 10)] ∧
    classifyFor detect_mime c9Jpg = some ClassifierTag.image ∧
    classifyFor detect_mime c9Xyz = some ClassifierTag.generic := by
  refine ⟨by decide, by decide, by decide, by decide, by decide⟩

/-! ## Round trip: helper lemmas -/

theorem append_cons_ne_self (root : List String) (a : String)
    (l : List String) : root ++ (a :: l) ≠ root := by
  intro h
  have := congrArg List.length h
  rw [List.length_append] at this
  simp at this

theorem lookupFile_of_mem_nodup (fs : Fs) (p : FsPath) (d : FileData)
    (hmem : (p, d) ∈ fs) (hnodup : (fs.map (fun e => e.1)).Nodup) :
    lookupFile fs p = some d := by
  induction fs with
  | nil => exact absurd hmem (by simp)
  | cons e rest ih =>
      rw [List.map_cons, List.nodup_cons] at hnodup
      rcases List.mem_cons.mp hmem with heq | hmem2
      · rw [← heq, lookupFile_cons, if_pos rfl]
      · have hne : e.1 ≠ p := by
          intro hp
          exact hnodup.1 (hp ▸ List.mem_map.mpr ⟨(p, d), hmem2, rfl⟩)
        rw [lookupFile_cons, if_neg hne]
        exact ih hmem2 hnodup.2

theorem scanList_paths_nodup (fs : Fs) (root : List String)
    (hnodup : (fs.map (fun e => e.1)).Nodup) :
    ((scanList fs root).map (fun r => r.path)).Nodup := by
  have h1 : (scanList fs root).map (fun r => r.path)
      = (scanFiles fs root).map (fun e => e.1) := by
    rw [scanList, List.map_map]
    rfl
  rw [h1]
  exact hnodup.sublist ((List.filter_sublist fs).map (fun e => e.1))

theorem registerAll_perm {C : Type} (regs : List (Nat × C)) :
    (registerAll regs).Perm regs := by
  have main : ∀ (l acc : List (Nat × C)),
      (l.foldl (fun acc pc => register_with_priority acc pc.1 pc.2) acc).Perm
        (acc ++ l) := by
    intro l
    induction l with
    | nil => intro acc; simp
    | cons x xs ih =>
        intro acc
        have h1 := ih (register_with_priority acc x.1 x.2)
        have h2 : (register_with_priority acc x.1 x.2 ++ xs).Perm
            ((acc ++ [x]) ++ xs) :=
          (sortDescBy_perm _ _).append_right xs
        have h3 : ((acc ++ [x]) ++ xs).Perm (acc ++ x :: xs) := by
          simp
        exact ((List.foldl_cons .. ▸ h1).trans h2).trans h3
  simpa using main regs []

theorem classifyFor_isSome (mimeOf : String → String) (p : FsPath) :
    ∃ tag, classifyFor mimeOf p = some tag := by
  have hgen : ((10 : Nat), ClassifierTag.generic) ∈ create_classifier_registry :=
    (registerAll_perm standardRegistrations).mem_iff.mpr (by decide)
  have hc : (ClassifierTag.generic, 10 * 1, 1)
      ∈ classifyCandidates tagConfidence create_classifier_registry
          (extLower p) (mimeOf (extLower p)) := by
    refine (mem_classifyCandidates tagConfidence _ _ _ _).mpr
      ⟨10, ClassifierTag.generic, hgen, ?_, ?_⟩
    · exact Nat.one_pos
    · rfl
  have hne : classifyOrder tagConfidence create_classifier_registry
      (extLower p) (mimeOf (extLower p)) ≠ [] := by
    intro hnil
    have := (mem_sortDescBy (fun t => t.2.1) _ _).mpr hc
    rw [classifyOrder] at hnil
    rw [hnil] at this
    exact absurd this (by simp)
  cases horder : classifyOrder tagConfidence create_classifier_registry
      (extLower p) (mimeOf (extLower p)) with
  | nil => exact absurd horder hne
  | cons t ts => exact ⟨t.1, by rw [classifyFor, horder]; rfl⟩

/-- Destinations always sit strictly below root/Organized. -/
theorem destinationFor_shape (root : List String) (cat : FileCategory)
    (year : Option Int) (p : FsPath) :
    ∃ tl, (destinationFor root cat year p).dirs = root ++ ("Organized" :: tl) ∧
      (destinationFor root cat year p).name = p.name := by
  refine ⟨[categoryDir cat] ++ subcategoryDirs cat ++
    (match year with
     | some y => [toString y]
     | none => []) , ?_, rfl⟩
  rw [destinationFor]
  simp [pathBuilderBuild]

theorem update_files_batch_append (entries : List Entry) :
    ∀ tbl : List IndexRow,
      (∀ r ∈ tbl, ∀ e ∈ entries, r.path ≠ e.raw.path) →
      ((entries.map (fun e => e.raw.path)).Nodup) →
      update_files_batch tbl entries = tbl ++ entries.map rowOfEntry := by
  induction entries with
  | nil => intro tbl _ _; simp [update_files_batch]
  | cons e rest ih =>
      intro tbl hdis hnodup
      rw [List.map_cons, List.nodup_cons] at hnodup
      have hany : tbl.any (fun t => decide (t.path = (rowOfEntry e).path)) = false := by
        rw [Bool.eq_false_iff]
        intro hc
        rcases List.any_eq_true.mp hc with ⟨t, ht, htp⟩
        exact hdis t ht e (List.mem_cons_self e rest) (by simpa using htp)
      have hstep : update_files_batch tbl (e :: rest)
          = update_files_batch (tbl ++ [rowOfEntry e]) rest := by
        rw [update_files_batch, List.foldl_cons, upsertRow, hany]
        rfl
      rw [hstep, ih (tbl ++ [rowOfEntry e]) ?_ hnodup.2]
      · simp
      · intro r hr e2 he2
        rcases List.mem_append.mp hr with h1 | h2
        · exact hdis r h1 e2 (List.mem_cons_of_mem e he2)
        · rcases List.mem_singleton.mp h2 with rfl
          intro hp
          have : e.raw.path ∈ rest.map (fun e => e.raw.path) :=
            List.mem_map.mpr ⟨e2, he2, by rw [← hp]; rfl⟩
          exact hnodup.1 this

theorem dedupByDest_of_nodup :
    ∀ (l : List IndexRow) (seen : List FsPath),
      ((l.map (fun r => r.dest_path)).Nodup) →
      (∀ r ∈ l, r.dest_path ∉ seen) →
      dedupByDest seen l = l := by
  intro l
  induction l with
  | nil => intro seen _ _; rfl
  | cons r rest ih =>
      intro seen hnodup hseen
      rw [List.map_cons, List.nodup_cons] at hnodup
      rw [dedupByDest, if_neg (hseen r (List.mem_cons_self r rest))]
      rw [ih (r.dest_path :: seen) hnodup.2]
      intro r2 hr2
      rw [List.mem_cons]
      push_neg
      constructor
      · intro hp
        exact hnodup.1 (List.mem_map.mpr ⟨r2, hr2, hp⟩)
      · exact hseen r2 (List.mem_cons_of_mem r hr2)

theorem isPrefixOf_append (l r : List String) :
    (l.isPrefixOf (l ++ r)) = true := by
  rw [List.isPrefixOf_iff_prefix]
  exact List.prefix_append l r

theorem fsPath_ne_of_dirs_ne {p q : FsPath} (h : p.dirs ≠ q.dirs) : p ≠ q :=
  fun hpq => h (congrArg FsPath.dirs hpq)

/-- The state of one processed entry after the organize pass, relative
to the pre-run content of the originals (origD) and the current
filesystem: the original is a top-level file, the recorded destination
sits below root/Organized, and either the file was physically moved to
the recorded destination (original gone, destination holding the
original data) or it was recorded as a duplicate (original untouched,
destination holding content with an equal hash). -/
def entrySpec (hashFn : List Nat → String) (root : List String)
    (origD : FsPath → Option FileData) (fs1 : Fs) (e : Entry) : Prop :=
  e.raw.path.dirs = root ∧
  (∃ tl, e.dest.dirs = root ++ ("Organized" :: tl)) ∧
  ((∃ d, origD e.raw.path = some d ∧ lookupFile fs1 e.dest = some d ∧
      lookupFile fs1 e.raw.path = none) ∨
   (∃ d dd, origD e.raw.path = some d ∧ lookupFile fs1 e.raw.path = some d ∧
      lookupFile fs1 e.dest = some dd ∧ hashFn dd.content = hashFn d.content))

theorem process_file_live_trace (hashFn : List Nat → String)
    (mimeOf : String → String) (yearOf : Int → Int) (fuel : Nat)
    (root : List String) (fs : Fs) (raw : RawMeta) (fsr : Fs) (en : Entry)
    (h : process_file hashFn mimeOf yearOf fuel root fs raw false
        = some (fsr, en)) :
    ∃ d, lookupFile fs raw.path = some d ∧ en.raw = raw ∧
      (∃ tl, en.dest.dirs = root ++ ("Organized" :: tl)) ∧
      ((lookupFile fs en.dest = none ∧
          fsr = setFile (eraseFile fs raw.path) en.dest d) ∨
       (∃ dd, lookupFile fs en.dest = some dd ∧
          hashFn dd.content = hashFn d.content ∧ fsr = fs)) := by
  rw [process_file] at h
  cases hc : classifyFor mimeOf raw.path with
  | none => rw [hc] at h; exact absurd h (by simp)
  | some tag =>
      simp only [hc, Bool.false_eq_true, if_false] at h
      obtain ⟨d, hd, hraw, _, _, hout⟩ :=
        handle_file_movement_trace hashFn fuel fs raw _ _ fsr en h
      obtain ⟨tl, hshape, _⟩ := destinationFor_shape root
        (extractCategory tag (extLower raw.path)) (yearFor yearOf tag raw)
        raw.path
      refine ⟨d, hd, hraw, ?_, ?_⟩
      · rcases hout with ⟨_, hdest, _⟩ | ⟨dd, _, _, hdest, _⟩ | ⟨dd, _, _, _, hdirs, _⟩
        · exact ⟨tl, by rw [hdest, hshape]⟩
        · exact ⟨tl, by rw [hdest, hshape]⟩
        · exact ⟨tl, by rw [hdirs, hshape]⟩
      · rcases hout with ⟨hfree, hdest, hfsr⟩ | ⟨dd, hdd, heq, hdest, hfsr⟩ |
          ⟨dd, hdd, hne, hfree, hdirs, hfsr⟩
        · exact Or.inl ⟨by rw [hdest]; exact hfree, by rw [hfsr, hdest]⟩
        · exact Or.inr ⟨dd, by rw [hdest]; exact hdd, heq, hfsr⟩
        · exact Or.inl ⟨hfree, hfsr⟩

theorem organizeGo_trace (hashFn : List Nat → String)
    (mimeOf : String → String) (yearOf : Int → Int) (fuel : Nat)
    (root : List String) (origD : FsPath → Option FileData) :
    ∀ (l : List RawMeta) (fs0 : Fs) (acc : List Entry)
      (res : Fs × List Entry),
      organizeGo hashFn mimeOf yearOf fuel root false (fs0, acc) l = some res →
      (∀ r ∈ l, r.path.dirs = root) →
      ((l.map (fun r => r.path)).Nodup) →
      (∀ r ∈ l, lookupFile fs0 r.path = origD r.path) →
      (∀ e ∈ acc, entrySpec hashFn root origD fs0 e) →
      ((acc.map (fun e => e.raw.path)).Nodup) →
      (∀ e ∈ acc, ∀ r ∈ l, e.raw.path ≠ r.path) →
      (∀ e ∈ res.2, entrySpec hashFn root origD res.1 e) ∧
      ((res.2.map (fun e => e.raw.path)).Nodup) ∧
      (∀ e ∈ res.2, e ∈ acc ∨ e.raw ∈ l) := by
  intro l
  induction l with
  | nil =>
      intro fs0 acc res h _ _ _ hacc haccnd _
      rw [organizeGo] at h
      have hres := (Option.some.inj h).symm
      subst hres
      exact ⟨hacc, haccnd, fun e he => Or.inl he⟩
  | cons r rest ih =>
      intro fs0 acc res h hdirs hnodup horig hacc haccnd hdis
      rw [organizeGo] at h
      cases hp : process_file hashFn mimeOf yearOf fuel root fs0 r false with
      | none => rw [hp] at h; exact absurd h (by simp)
      | some fe =>
          rw [hp, Option.some_bind] at h
          obtain ⟨d, hd, hraw, ⟨tl, hshape⟩, hout⟩ :=
            process_file_live_trace hashFn mimeOf yearOf fuel root fs0 r
              fe.1 fe.2 (by rw [hp])
          have hrdirs : r.path.dirs = root := hdirs r (List.mem_cons_self r rest)
          have hodr : origD r.path = some d := by
            rw [← horig r (List.mem_cons_self r rest)]
            exact hd
          rw [List.map_cons, List.nodup_cons] at hnodup
          -- facts shared by both outcome branches
          have hdest_ne_top : ∀ p : FsPath, p.dirs = root → p ≠ fe.2.dest := by
            intro p hp2
            refine fsPath_ne_of_dirs_ne ?_
            rw [hp2, hshape]
            exact (append_cons_ne_self root _ tl).symm
          have hnewnd : ((acc ++ [fe.2]).map (fun e => e.raw.path)).Nodup := by
            rw [List.map_append, List.map_singleton, hraw]
            refine List.Nodup.append haccnd (List.nodup_singleton _) ?_
            intro x hx hx2
            rcases List.mem_singleton.mp hx2 with rfl
            rcases List.mem_map.mp hx with ⟨e, he, hep⟩
            exact hdis e he r (List.mem_cons_self r rest) hep
          have hnewdis : ∀ e ∈ acc ++ [fe.2], ∀ r2 ∈ rest, e.raw.path ≠ r2.path := by
            intro e he r2 hr2
            rcases List.mem_append.mp he with h1 | h2
            · exact hdis e h1 r2 (List.mem_cons_of_mem r hr2)
            · rcases List.mem_singleton.mp h2 with rfl
              rw [hraw]
              intro hpp
              exact hnodup.1 (hpp ▸ List.mem_map.mpr ⟨r2, hr2, rfl⟩)
          rcases hout with ⟨hfree, hfsr⟩ | ⟨dd, hdd, heqh, hfsr⟩
          · -- the file was moved to fe.2.dest
            have hlook_pres : ∀ p : FsPath, p.dirs = root → p ≠ r.path →
                lookupFile fe.1 p = lookupFile fs0 p := by
              intro p hp2 hpr
              rw [hfsr, lookupFile_set_ne _ _ _ _ (hdest_ne_top p hp2),
                lookupFile_erase_ne _ _ _ hpr]
            have hlook_deep : ∀ p : FsPath, p ≠ fe.2.dest → p.dirs ≠ root →
                lookupFile fe.1 p = lookupFile fs0 p := by
              intro p hpd hpr
              have : p ≠ r.path := fsPath_ne_of_dirs_ne (by rw [hrdirs]; exact hpr)
              rw [hfsr, lookupFile_set_ne _ _ _ _ hpd,
                lookupFile_erase_ne _ _ _ this]
            have hmain := ih fe.1 (acc ++ [fe.2]) res h
              (fun r2 hr2 => hdirs r2 (List.mem_cons_of_mem r hr2))
              hnodup.2
              ?_ ?_ hnewnd hnewdis
            · refine ⟨hmain.1, hmain.2.1, ?_⟩
              intro e he
              rcases hmain.2.2 e he with h1 | h2
              · rcases List.mem_append.mp h1 with ha | hb
                · exact Or.inl ha
                · rcases List.mem_singleton.mp hb with rfl
                  rw [hraw]
                  exact Or.inr (List.mem_cons_self r rest)
              · exact Or.inr (List.mem_cons_of_mem r h2)
            · -- unprocessed originals keep their pre-run data
              intro r2 hr2
              have hne_r : r2.path ≠ r.path := by
                intro hpp
                exact hnodup.1 (hpp ▸ List.mem_map.mpr ⟨r2, hr2, rfl⟩)
              rw [hlook_pres r2.path (hdirs r2 (List.mem_cons_of_mem r hr2)) hne_r]
              exact horig r2 (List.mem_cons_of_mem r hr2)
            · -- all accumulated entries keep their specs
              intro e he
              rcases List.mem_append.mp he with h1 | h2
              · obtain ⟨he1, ⟨tl2, he2⟩, he3⟩ := hacc e h1
                refine ⟨he1, ⟨tl2, he2⟩, ?_⟩
                have hpath_pres : lookupFile fe.1 e.raw.path
                    = lookupFile fs0 e.raw.path :=
                  hlook_pres e.raw.path he1
                    (fun hpp => hdis e h1 r (List.mem_cons_self r rest) hpp)
                have hdest_deep : e.dest.dirs ≠ root := by
                  rw [he2]
                  exact append_cons_ne_self root _ tl2
                rcases he3 with ⟨d2, hm1, hm2, hm3⟩ | ⟨d2, dd2, hq1, hq2, hq3, hq4⟩
                · have hdest_pres : lookupFile fe.1 e.dest
                      = lookupFile fs0 e.dest := by
                    refine hlook_deep e.dest ?_ hdest_deep
                    intro hdd2
                    rw [hdd2] at hm2
                    rw [hm2] at hfree
                    exact absurd hfree (by simp)
                  exact Or.inl ⟨d2, hm1, by rw [hdest_pres]; exact hm2,
                    by rw [hpath_pres]; exact hm3⟩
                · have hdest_pres : lookupFile fe.1 e.dest
                      = lookupFile fs0 e.dest := by
                    refine hlook_deep e.dest ?_ hdest_deep
                    intro hdd2
                    rw [hdd2] at hq3
                    rw [hq3] at hfree
                    exact absurd hfree (by simp)
                  exact Or.inr ⟨d2, dd2, hq1, by rw [hpath_pres]; exact hq2,
                    by rw [hdest_pres]; exact hq3, hq4⟩
              · rcases List.mem_singleton.mp h2 with rfl
                refine ⟨by rw [hraw]; exact hrdirs, ⟨tl, hshape⟩, ?_⟩
                refine Or.inl ⟨d, by rw [hraw]; exact hodr, ?_, ?_⟩
                · rw [hfsr, lookupFile_set_self]
                · rw [hraw, hfsr,
                    lookupFile_set_ne _ _ _ _ (hdest_ne_top r.path hrdirs),
                    lookupFile_erase_self]
          · -- duplicate content: nothing moved
            have hmain := ih fe.1 (acc ++ [fe.2]) res h
              (fun r2 hr2 => hdirs r2 (List.mem_cons_of_mem r hr2))
              hnodup.2
              ?_ ?_ hnewnd hnewdis
            · refine ⟨hmain.1, hmain.2.1, ?_⟩
              intro e he
              rcases hmain.2.2 e he with h1 | h2
              · rcases List.mem_append.mp h1 with ha | hb
                · exact Or.inl ha
                · rcases List.mem_singleton.mp hb with rfl
                  rw [hraw]
                  exact Or.inr (List.mem_cons_self r rest)
              · exact Or.inr (List.mem_cons_of_mem r h2)
            · intro r2 hr2
              rw [hfsr]
              exact horig r2 (List.mem_cons_of_mem r hr2)
            · intro e he
              rcases List.mem_append.mp he with h1 | h2
              · rw [hfsr]
                exact hacc e h1
              · rcases List.mem_singleton.mp h2 with rfl
                refine ⟨by rw [hraw]; exact hrdirs, ⟨tl, hshape⟩, ?_⟩
                refine Or.inr ⟨d, dd, by rw [hraw]; exact hodr,
                  by rw [hraw, hfsr]; exact hd, by rw [hfsr]; exact hdd, heqh⟩

/-- A successful revertStep either leaves the state unchanged or it
moves the destination content back to the original path, touching the
filesystem only at the two paths of the record itself. -/
theorem revertStep_out (hashFn : List Nat → String) (fuel : Nat)
    (st : Fs × List IndexRow) (rec : IndexRow) (st2 : Fs × List IndexRow)
    (h : revertStep hashFn fuel st rec = some st2) :
    st2 = st ∨
    ∃ dd, lookupFile st.1 rec.dest_path = some dd ∧
      (st2.1 = setFile (eraseFile st.1 rec.dest_path) rec.path dd ∨
       st2.1 = setFile (eraseFile (eraseFile st.1 rec.path) rec.dest_path)
           rec.path dd) := by
  by_cases hex : existsFile st.1 rec.dest_path = false
  · rw [revertStep, if_pos hex] at h
    exact Or.inl (Option.some.inj h).symm
  · have hsome : ∃ dd, lookupFile st.1 rec.dest_path = some dd := by
      cases hl : lookupFile st.1 rec.dest_path with
      | none => exact absurd ((existsFile_false_iff _ _).mpr hl) hex
      | some dd => exact ⟨dd, rfl⟩
    obtain ⟨dd, hdd⟩ := hsome
    by_cases heq2 : rec.dest_path = rec.path
    · rw [revertStep, if_neg hex, if_pos heq2] at h
      exact Or.inl (Option.some.inj h).symm
    · cases hod : lookupFile st.1 rec.path with
      | none =>
          have := (revertStep_eval hashFn fuel st rec).2.2.2.1 dd hdd heq2 hod
          rw [this] at h
          refine Or.inr ⟨dd, hdd, Or.inl ?_⟩
          rw [← Option.some.inj h]
      | some od =>
          by_cases hh : hashFn dd.content = hashFn od.content
          · have := (revertStep_eval hashFn fuel st rec).2.2.1 dd od hdd heq2 hod hh
            rw [this] at h
            exact Or.inl (Option.some.inj h).symm
          · have := (revertStep_eval hashFn fuel st rec).2.2.2.2 dd od hdd heq2 hod hh
            rw [this] at h
            refine Or.inr ⟨dd, hdd, Or.inr ?_⟩
            rw [← Option.some.inj h]

theorem revertGo_frame (hashFn : List Nat → String) (fuel : Nat) :
    ∀ (R : List IndexRow) (st res : Fs × List IndexRow),
      revertGo hashFn fuel st R = some res →
      ∀ p : FsPath, (∀ rec ∈ R, rec.path ≠ p ∧ rec.dest_path ≠ p) →
      lookupFile res.1 p = lookupFile st.1 p := by
  intro R
  induction R with
  | nil =>
      intro st res h p _
      rw [revertGo] at h
      rw [← Option.some.inj h]
  | cons rec rest ih =>
      intro st res h p hp
      rw [revertGo] at h
      cases hstep : revertStep hashFn fuel st rec with
      | none => rw [hstep] at h; exact absurd h (by simp)
      | some st2 =>
          rw [hstep, Option.some_bind] at h
          have htail := ih st2 res h p
            (fun r2 hr2 => hp r2 (List.mem_cons_of_mem rec hr2))
          rw [htail]
          obtain ⟨hp1, hp2⟩ := hp rec (List.mem_cons_self rec rest)
          rcases revertStep_out hashFn fuel st rec st2 hstep with hsame | ⟨dd, _, hout⟩
          · rw [hsame]
          · have hne1 : p ≠ rec.path := fun hq => hp1 hq.symm
            have hne2 : p ≠ rec.dest_path := fun hq => hp2 hq.symm
            rcases hout with h1 | h2
            · rw [h1, lookupFile_set_ne _ _ _ _ hne1,
                lookupFile_erase_ne _ _ _ hne2]
            · rw [h2, lookupFile_set_ne _ _ _ _ hne1,
                lookupFile_erase_ne _ _ _ hne2,
                lookupFile_erase_ne _ _ _ hne1]

theorem revertGo_restore (hashFn : List Nat → String) (fuel : Nat)
    (root : List String) :
    ∀ (R : List IndexRow) (g : Fs) (jdx : List IndexRow)
      (res : Fs × List IndexRow),
      revertGo hashFn fuel (g, jdx) R = some res →
      (∀ rec ∈ R, rec.path.dirs = root ∧ rec.dest_path.dirs ≠ root) →
      ((R.map (fun rec => rec.path)).Nodup) →
      ((R.map (fun rec => rec.dest_path)).Nodup) →
      (∀ rec ∈ R,
        (lookupFile g rec.path = none ∧
          (lookupFile g rec.dest_path).isSome = true) ∨
        (∃ d dd, lookupFile g rec.path = some d ∧
          lookupFile g rec.dest_path = some dd ∧
          hashFn dd.content = hashFn d.content)) →
      ∀ rec ∈ R, ∀ d, lookupFile g rec.path = none →
        lookupFile g rec.dest_path = some d →
        lookupFile res.1 rec.path = some d := by
  intro R
  induction R with
  | nil =>
      intro g jdx res _ _ _ _ _ rec hrec
      exact absurd hrec (by simp)
  | cons rec0 rest ih =>
      intro g jdx res h hshape hpnd hdnd hMD rec hrec d hnone hdest
      rw [revertGo] at h
      have hd0 : rec0.dest_path ≠ rec0.path := by
        refine fsPath_ne_of_dirs_ne ?_
        rw [(hshape rec0 (List.mem_cons_self rec0 rest)).1]
        exact (hshape rec0 (List.mem_cons_self rec0 rest)).2
      rw [List.map_cons, List.nodup_cons] at hpnd hdnd
      rcases hMD rec0 (List.mem_cons_self rec0 rest) with
        ⟨hm1, hm2⟩ | ⟨d2, dd2, hq1, hq2, hq3⟩
      · -- the head record is a moved file: it is moved back
        obtain ⟨dd0, hdd0⟩ := Option.isSome_iff_exists.mp hm2
        have hstep := (revertStep_eval hashFn fuel (g, jdx) rec0).2.2.2.1
          dd0 hdd0 hd0 hm1
        rw [hstep, Option.some_bind] at h
        -- lookups at the record paths of the tail are preserved
        have hpres : ∀ p : FsPath, p ≠ rec0.path → p ≠ rec0.dest_path →
            lookupFile (setFile (eraseFile g rec0.dest_path) rec0.path dd0) p
              = lookupFile g p := by
          intro p h1 h2
          rw [lookupFile_set_ne _ _ _ _ h1, lookupFile_erase_ne _ _ _ h2]
        have hnptop : ∀ r2 ∈ rest, r2.path ≠ rec0.path ∧
            r2.path ≠ rec0.dest_path ∧ r2.dest_path ≠ rec0.path ∧
            r2.dest_path ≠ rec0.dest_path := by
          intro r2 hr2
          refine ⟨?_, ?_, ?_, ?_⟩
          · intro hpp
            exact hpnd.1 (hpp ▸ List.mem_map.mpr ⟨r2, hr2, rfl⟩)
          · refine fsPath_ne_of_dirs_ne ?_
            rw [(hshape r2 (List.mem_cons_of_mem rec0 hr2)).1]
            exact fun hc =>
              (hshape rec0 (List.mem_cons_self rec0 rest)).2 hc.symm
          · refine fsPath_ne_of_dirs_ne ?_
            rw [(hshape rec0 (List.mem_cons_self rec0 rest)).1]
            exact (hshape r2 (List.mem_cons_of_mem rec0 hr2)).2
          · intro hpp
            exact hdnd.1 (hpp ▸ List.mem_map.mpr ⟨r2, hr2, rfl⟩)
        have htailMD : ∀ r2 ∈ rest,
            (lookupFile (setFile (eraseFile g rec0.dest_path) rec0.path dd0)
                r2.path = none ∧
              (lookupFile (setFile (eraseFile g rec0.dest_path) rec0.path dd0)
                r2.dest_path).isSome = true) ∨
            (∃ d dd, lookupFile (setFile (eraseFile g rec0.dest_path) rec0.path dd0)
                r2.path = some d ∧
              lookupFile (setFile (eraseFile g rec0.dest_path) rec0.path dd0)
                r2.dest_path = some dd ∧
              hashFn dd.content = hashFn d.content) := by
          intro r2 hr2
          obtain ⟨hn1, hn2, hn3, hn4⟩ := hnptop r2 hr2
          rw [hpres r2.path hn1 hn2, hpres r2.dest_path hn3 hn4]
          exact hMD r2 (List.mem_cons_of_mem rec0 hr2)
        rcases List.mem_cons.mp hrec with hrec0 | hrecrest
        · -- conclusion for the head record itself
          subst hrec0
          have hdval : dd0 = d := by
            rw [hdd0] at hdest
            exact Option.some.inj hdest
          subst hdval
          have hframe := revertGo_frame hashFn fuel rest
            (setFile (eraseFile g rec.dest_path) rec.path dd0, _) res h
            rec.path ?_
          · rw [hframe, lookupFile_set_self]
          · intro r2 hr2
            obtain ⟨hn1, _, hn3, _⟩ := hnptop r2 hr2
            exact ⟨hn1, hn3⟩
        · -- conclusion for a tail record
          obtain ⟨hn1, hn2, hn3, hn4⟩ := hnptop rec hrecrest
          refine ih (setFile (eraseFile g rec0.dest_path) rec0.path dd0) _ res h
            (fun r2 hr2 => hshape r2 (List.mem_cons_of_mem rec0 hr2))
            hpnd.2 hdnd.2 htailMD rec hrecrest d ?_ ?_
          · rw [hpres rec.path hn1 hn2]
            exact hnone
          · rw [hpres rec.dest_path hn3 hn4]
            exact hdest
      · -- the head record is a duplicate: it is skipped
        have hstep := (revertStep_eval hashFn fuel (g, jdx) rec0).2.2.1
          dd2 d2 hq2 hd0 hq1 hq3
        rw [hstep, Option.some_bind] at h
        rcases List.mem_cons.mp hrec with hrec0 | hrecrest
        · subst hrec0
          rw [hq1] at hnone
          exact absurd hnone (by simp)
        · exact ih g jdx res h
            (fun r2 hr2 => hshape r2 (List.mem_cons_of_mem rec0 hr2))
            hpnd.2 hdnd.2
            (fun r2 hr2 => hMD r2 (List.mem_cons_of_mem rec0 hr2))
            rec hrecrest d hnone hdest

/-- C1 amended: a live organise pass starting from a fresh index,
followed by a revert of the same root, restores every file the
organise pass physically moved — untouched in between — back to its
original path with its data unchanged, PROVIDED the recorded
destinations of the run are pairwise distinct (no file was recorded as
a content duplicate of the destination of another record).  Without that
proviso the claim fails: the recency-ordered, destination-deduplicated
revert enumeration can keep a duplicate record and drop the moved
record sharing its destination (see the counterexample). -/
theorem organize_revert_round_trip_of_distinct_dests
    (hashFn : List Nat → String) (mimeOf : String → String)
    (yearOf : Int → Int) (fuel : Nat) (fs : Fs) (root : List String)
    (hfs : (fs.map (fun e => e.1)).Nodup)
    (st1 : Fs × List IndexRow × List Entry)
    (horg : organise_files hashFn mimeOf yearOf fuel fs [] root false = some st1)
    (hdest : ((st1.2.2).map (fun e => e.dest)).Nodup)
    (st2 : Fs × List IndexRow)
    (hrev : revert_files hashFn fuel st1.1 st1.2.1 root = some st2) :
    ∀ e ∈ st1.2.2, lookupFile st1.1 e.raw.path = none →
      lookupFile st2.1 e.raw.path = lookupFile fs e.raw.path := by
  rw [organise_files] at horg
  cases hg : organizeGo hashFn mimeOf yearOf fuel root false (fs, [])
      (scanList fs root) with
  | none => rw [hg] at horg; exact absurd horg (by simp)
  | some go =>
      rw [hg] at horg
      have hst1 := Option.some.inj horg
      simp only [Bool.false_eq_true, if_false] at hst1
      have h11 : st1.1 = go.1 := by rw [← hst1]
      have h122 : st1.2.2 = go.2 := by rw [← hst1]
      have h121 : st1.2.1 = update_files_batch [] go.2 := by rw [← hst1]
      have htrace := organizeGo_trace hashFn mimeOf yearOf fuel root
        (fun p => lookupFile fs p) (scanList fs root) fs [] go hg
        (fun r hr => (scanList_mem fs root r hr).1)
        (scanList_paths_nodup fs root hfs)
        (fun r _ => rfl)
        (fun e he => absurd he (by simp))
        (by simp)
        (fun e he => absurd he (by simp))
      have hepnd : ((go.2.map (fun e => e.raw.path)).Nodup) := htrace.2.1
      have hidx : st1.2.1 = go.2.map rowOfEntry := by
        rw [h121, update_files_batch_append go.2 []
          (fun r hr => absurd hr (by simp)) hepnd]
        rfl
      -- the records processed by revert are exactly the reversed rows
      have hrowdest : (go.2.map rowOfEntry).map (fun r => r.dest_path)
          = go.2.map (fun e => e.dest) := by
        rw [List.map_map]
        rfl
      have hrowpath : (go.2.map rowOfEntry).map (fun r => r.path)
          = go.2.map (fun e => e.raw.path) := by
        rw [List.map_map]
        rfl
      have hdest2 : ((go.2.map (fun e => e.dest)).Nodup) := by
        rw [← h122]
        exact hdest
      have hmemrow : ∀ rec ∈ (go.2.map rowOfEntry).reverse,
          ∃ e ∈ go.2, rec = rowOfEntry e := by
        intro rec hrec
        rcases List.mem_map.mp (List.mem_reverse.mp hrec) with ⟨e, he, hre⟩
        exact ⟨e, he, hre.symm⟩
      have hfilter : ((go.2.map rowOfEntry).reverse).filter
          (fun r => root.isPrefixOf r.dest_path.components)
            = (go.2.map rowOfEntry).reverse := by
        refine List.filter_eq_self.mpr ?_
        intro rec hrec
        rcases hmemrow rec hrec with ⟨e, he, hre⟩
        obtain ⟨_, ⟨tl, hdd⟩, _⟩ := htrace.1 e he
        have hcomp : rec.dest_path.components
            = root ++ ("Organized" :: (tl ++ [rec.dest_path.name.render])) := by
          rw [FsPath.components, hre]
          show e.dest.dirs ++ [(rowOfEntry e).dest_path.name.render] = _
          rw [hdd]
          simp
        rw [hcomp]
        exact isPrefixOf_append root _
      have hdedup : dedupByDest [] ((go.2.map rowOfEntry).reverse)
          = (go.2.map rowOfEntry).reverse := by
        refine dedupByDest_of_nodup _ [] ?_ (fun r _ => by simp)
        rw [List.map_reverse, hrowdest]
        exact List.nodup_reverse.mpr hdest2
      rw [revert_files, h11, hidx] at hrev
      have hgetall : get_all_files (go.2.map rowOfEntry)
          = (go.2.map rowOfEntry).reverse := rfl
      rw [hgetall, hfilter, hdedup] at hrev
      -- shapes, uniqueness and move/duplicate classification of the records
      have hshape : ∀ rec ∈ (go.2.map rowOfEntry).reverse,
          rec.path.dirs = root ∧ rec.dest_path.dirs ≠ root := by
        intro rec hrec
        rcases hmemrow rec hrec with ⟨e, he, hre⟩
        obtain ⟨he1, ⟨tl, hdd⟩, _⟩ := htrace.1 e he
        subst hre
        refine ⟨he1, ?_⟩
        show e.dest.dirs ≠ root
        rw [hdd]
        exact append_cons_ne_self root _ tl
      have hpnd : (((go.2.map rowOfEntry).reverse).map (fun r => r.path)).Nodup := by
        rw [List.map_reverse, hrowpath]
        exact List.nodup_reverse.mpr hepnd
      have hdnd : (((go.2.map rowOfEntry).reverse).map
          (fun r => r.dest_path)).Nodup := by
        rw [List.map_reverse, hrowdest]
        exact List.nodup_reverse.mpr hdest2
      have hMD : ∀ rec ∈ (go.2.map rowOfEntry).reverse,
          (lookupFile go.1 rec.path = none ∧
            (lookupFile go.1 rec.dest_path).isSome = true) ∨
          (∃ d dd, lookupFile go.1 rec.path = some d ∧
            lookupFile go.1 rec.dest_path = some dd ∧
            hashFn dd.content = hashFn d.content) := by
        intro rec hrec
        rcases hmemrow rec hrec with ⟨e, he, hre⟩
        obtain ⟨_, _, hspec⟩ := htrace.1 e he
        subst hre
        rcases hspec with ⟨d, _, hm2, hm3⟩ | ⟨d, dd, _, hq2, hq3, hq4⟩
        · exact Or.inl ⟨hm3, by rw [show (rowOfEntry e).dest_path = e.dest from rfl, hm2]; rfl⟩
        · exact Or.inr ⟨d, dd, hq2, hq3, hq4⟩
      have hrestore := revertGo_restore hashFn fuel root
        ((go.2.map rowOfEntry).reverse) go.1 (go.2.map rowOfEntry) st2 hrev
        hshape hpnd hdnd hMD
      -- conclude for every moved entry
      intro e he hnone
      rw [h122] at he
      rw [h11] at hnone
      obtain ⟨_, _, hspec⟩ := htrace.1 e he
      rcases hspec with ⟨d, hm1, hm2, _⟩ | ⟨d, dd, _, hq2, _, _⟩
      · have hrecmem : rowOfEntry e ∈ (go.2.map rowOfEntry).reverse :=
          List.mem_reverse.mpr (List.mem_map.mpr ⟨e, he, rfl⟩)
        have := hrestore (rowOfEntry e) hrecmem d hnone hm2
        rw [show (rowOfEntry e).path = e.raw.path from rfl] at this
        rw [this]
        exact hm1.symm
      · rw [hq2] at hnone
        exact absurd hnone (by simp)

/-! ## Round trip counterexample

Root r holds a.txt and a_1.txt with identical content, and a file with
different content already sits at the computed destination
Organized/Documents/Text/a.txt.  Organize resolves the conflict for
a.txt and moves it to Organized/Documents/Text/a_1.txt; processing
a_1.txt then finds its own destination occupied by identical content
and records it as a duplicate pointing at the same destination.
Revert enumerates the index by recency (most recently written rows
first), deduplicates by destination keeping the first-seen record —
the duplicate one — and skips it because a_1.txt is already in place
with an equal hash; the record of the physically moved a.txt was
dropped by the deduplication, so a.txt is never restored although it
was moved by organize and touched by nothing else. -/

def rtA : FsPath := { dirs := ["r"], name := { stem := "a", ext := some "txt" } }

def rtA1 : FsPath := { dirs := ["r"], name := { stem := "a_1", ext := some "txt" } }

def rtPre : FsPath :=
  { dirs := ["r", "Organized", "Documents", "Text"]
    name := { stem := "a", ext := some "txt" } }

def rtDest1 : FsPath :=
  { dirs := ["r", "Organized", "Documents", "Text"]
    name := { stem := "a_1", ext := some "txt" } }

def rtSame : FileData :=
  { content := [1], created := none, modified := none, accessed := none }

def rtOther : FileData :=
  { content := [2], created := none, modified := none, accessed := none }

def rtFs : Fs := [(rtA, rtSame), (rtA1, rtSame), (rtPre, rtOther)]

def rtHash : List Nat → String := fun c => toString c

def rtYear : Int → Int := fun _ => 2023

def rtOrg : Option (Fs × List IndexRow × List Entry) :=
  organise_files rtHash detect_mime rtYear 5 rtFs [] ["r"] false

def rtRound : Option ((Fs × List IndexRow × List Entry) × (Fs × List IndexRow)) :=
  rtOrg.bind (fun st1 =>
    (revert_files rtHash 5 st1.1 st1.2.1 ["r"]).map (fun st2 => (st1, st2)))

/-- C1 counterexample: organize(r) followed by revert(r), with no
external interference, fails to restore a.txt — a file organize
physically moved — to its original path: after the round trip a.txt
is still absent from the root and its content still sits at
Organized/Documents/Text/a_1.txt. -/
theorem organize_revert_round_trip_counterexample :
    lookupFile rtFs rtA = some rtSame ∧
    (rtOrg.map (fun st1 =>
        (lookupFile st1.1 rtA, lookupFile st1.1 rtDest1, lookupFile st1.1 rtA1)))
      = some (none, some rtSame, some rtSame) ∧
    (rtRound.map (fun p => (lookupFile p.2.1 rtA, lookupFile p.2.1 rtDest1)))
      = some (none, some rtSame) := by
  refine ⟨by decide, by decide, by decide⟩

/-! Witness scenario for the amended round trip: one file, no
pre-existing destination, all recorded destinations distinct. -/

def rtwP : FsPath := { dirs := ["w"], name := { stem := "a", ext := some "jpg" } }

def rtwD : FileData :=
  { content := [7], created := none, modified := none, accessed := none }

def rtwFs : Fs := [(rtwP, rtwD)]

def rtwSt1 : Fs × List IndexRow × List Entry :=
  (organise_files rtHash detect_mime rtYear 3 rtwFs [] ["w"] false).getD ([], [], [])

def rtwSt2 : Fs × List IndexRow :=
  (revert_files rtHash 3 rtwSt1.1 rtwSt1.2.1 ["w"]).getD ([], [])

def rtwEntry : Entry :=
  { raw := rawOf rtwP rtwD
    category := "Images"
    dest := { dirs := ["w", "Organized", "Images", "Jpeg"]
              name := { stem := "a", ext := some "jpg" } }
    hash := rtHash [7] }

/-- Witness for C1 amended: in the one-file scenario the moved file is
restored to its original path with unchanged data. -/
theorem organize_revert_round_trip_witness :
    lookupFile rtwSt2.1 rtwP = lookupFile rtwFs rtwP :=
  organize_revert_round_trip_of_distinct_dests rtHash detect_mime rtYear 3
    rtwFs ["w"] (by decide) rtwSt1 (by decide) (by decide) rtwSt2 (by decide)
    rtwEntry (by decide) (by decide)

end FileOrganizer
